import Mathlib

/-!
Verification of the ImageLocalizator HTTP backend (src/server.js) against its
natural-language specification.

The JavaScript code is shallowly embedded: JS strings become `List Char`,
JS values (as produced by `express.json`, `JSON.parse` and object literals)
become the mutual inductive `JsValue`/`JsArr`/`JsObj`, and the numeric domain
of the embedding is the integers (`JNum.finite : Int`) together with the
non-finite IEEE values `nan`, `inf`, `neginf`; fractional doubles are outside
the embedding's number domain.  Member access that would throw a `TypeError`
in JS (reading a property of `null`/`undefined`) is modelled with `Option`.
Platform functions used by the source (`path.basename`, `path.join`,
`JSON.stringify(·, null, 2)`, `JSON.parse`, `String`, `Number`,
`String.prototype.trim/slice/indexOf/lastIndexOf`, regex replaces) are
modelled from their documented semantics, restricted to this domain.
-/

/-- JS strings are modelled as lists of unicode scalar values. -/
abbrev JStr := List Char

/-- The numeric domain of the embedding: integers plus the non-finite
IEEE double values. -/
inductive JNum where
  | finite (i : Int)
  | nan
  | inf
  | neginf
deriving DecidableEq, Repr

mutual
/-- A JavaScript value (the fragment produced by JSON parsing and the
object/array literals of server.js, plus `undefined`). -/
inductive JsValue where
  | null
  | undefined
  | bool (b : Bool)
  | num (n : JNum)
  | str (s : JStr)
  | arr (xs : JsArr)
  | obj (ms : JsObj)
deriving DecidableEq, Repr

/-- A JS array: a sequence of JS values. -/
inductive JsArr where
  | nil
  | cons (v : JsValue) (t : JsArr)
deriving DecidableEq, Repr

/-- A JS object: its own-enumerable properties in insertion order. -/
inductive JsObj where
  | nil
  | cons (k : JStr) (v : JsValue) (t : JsObj)
deriving DecidableEq, Repr
end

namespace JsArr

/-- Length of a JS array. -/
def len : JsArr → Nat
  | .nil => 0
  | .cons _ t => 1 + len t

/-- `Array.prototype.slice(0, n)`: the first `n` elements. -/
def takeA (n : Nat) : JsArr → JsArr
  | .nil => .nil
  | .cons v t => match n with
    | 0 => .nil
    | m + 1 => .cons v (takeA m t)

/-- Append a value at the end of a JS array. -/
def snocA (a : JsArr) (v : JsValue) : JsArr :=
  match a with
  | .nil => .cons v .nil
  | .cons x t => .cons x (snocA t v)

/-- Concatenation of JS arrays. -/
def appA (a b : JsArr) : JsArr :=
  match a with
  | .nil => b
  | .cons x t => .cons x (appA t b)

/-- View of a JS array as a Lean list. -/
def toList : JsArr → List JsValue
  | .nil => []
  | .cons v t => v :: toList t

end JsArr

namespace JsObj

/-- First-match lookup of a property (keys produced by JSON parsing are
unique, so first match and last match agree on reachable values). -/
def find (k : JStr) : JsObj → Option JsValue
  | .nil => none
  | .cons k2 v t => if k2 = k then some v else find k t

/-- Append a member at the end of an object. -/
def snocO (a : JsObj) (k : JStr) (v : JsValue) : JsObj :=
  match a with
  | .nil => .cons k v .nil
  | .cons k2 v2 t => .cons k2 v2 (snocO t k v)

/-- Concatenation of member lists. -/
def appO (a b : JsObj) : JsObj :=
  match a with
  | .nil => b
  | .cons k v t => .cons k v (appO t b)

end JsObj

/-- JS truthiness: `undefined`, `null`, `false`, `0`, `NaN` and the empty
string are falsy; every other value (including `[]` and `{}`) is truthy. -/
def truthy : JsValue → Bool
  | .undefined => false
  | .null => false
  | .bool b => b
  | .num (.finite i) => decide (i ≠ 0)
  | .num .nan => false
  | .num .inf => true
  | .num .neginf => true
  | .str s => decide (s ≠ [])
  | .arr _ => true
  | .obj _ => true

/-- `Array.isArray`. -/
def isArrayJs : JsValue → Bool
  | .arr _ => true
  | _ => false

/-- Plain member access `v.k`.  Returns `none` when JS would throw a
`TypeError` (access on `null`/`undefined`); on non-object primitives and
arrays the properties read by server.js are absent, hence `undefined`. -/
def getMem (v : JsValue) (k : JStr) : Option JsValue :=
  match v with
  | .null => none
  | .undefined => none
  | .obj ms => some ((ms.find k).getD .undefined)
  | _ => some .undefined

/-- Optional chaining `v?.k`: `undefined` when `v` is nullish, otherwise
plain member access (never throws on nullish `v`). -/
def getQ (v : JsValue) (k : JStr) : JsValue :=
  match v with
  | .null => .undefined
  | .undefined => .undefined
  | _ => (getMem v k).getD .undefined

/-- Nullish coalescing `a ?? b`. -/
def coalesce (a b : JsValue) : JsValue :=
  match a with
  | .null => b
  | .undefined => b
  | _ => a

/-- Logical or `a || b` (value-returning, truthiness-based). -/
def jsOr (a b : JsValue) : JsValue :=
  if truthy a then a else b

/-- The whitespace class of JS regex `\s` (also the set trimmed by
`String.prototype.trim`). -/
def isWs (c : Char) : Bool :=
  let n := c.toNat
  n = 9 || n = 10 || n = 11 || n = 12 || n = 13 || n = 32 || n = 0xa0 ||
  n = 0x1680 || (0x2000 ≤ n && n ≤ 0x200a) || n = 0x2028 || n = 0x2029 ||
  n = 0x202f || n = 0x205f || n = 0x3000 || n = 0xfeff

/-- The character class `[\r\n]`. -/
def isNl (c : Char) : Bool := c = '\r' || c = '\n'

/-- `replace(/[\r\n]+/g, ' ')`: every maximal run of CR/LF characters is
replaced by a single space. -/
def nlRepl : JStr → JStr
  | [] => []
  | [c] => if isNl c then [' '] else [c]
  | c :: d :: cs =>
    if isNl c then
      (if isNl d then nlRepl (d :: cs) else ' ' :: nlRepl (d :: cs))
    else c :: nlRepl (d :: cs)

/-- `replace(/\s+/g, ' ')`: every maximal run of whitespace is replaced by a
single space. -/
def squash : JStr → JStr
  | [] => []
  | [c] => if isWs c then [' '] else [c]
  | c :: d :: cs =>
    if isWs c then
      (if isWs d then squash (d :: cs) else ' ' :: squash (d :: cs))
    else c :: squash (d :: cs)

/-- Drop leading whitespace. -/
def trimL (l : JStr) : JStr := l.dropWhile isWs

/-- Drop trailing whitespace. -/
def trimR : JStr → JStr
  | [] => []
  | c :: t => match trimR t with
    | [] => if isWs c then [] else [c]
    | r => c :: r

/-- `String.prototype.trim`. -/
def trimJs (l : JStr) : JStr := trimR (trimL l)

/-- Decimal digits of a natural number, most significant first
(fuel-based so that the definition is structural and kernel-evaluable;
`n + 1` units of fuel always suffice). -/
def natDecAux : Nat → Nat → JStr
  | 0, _ => []
  | fuel + 1, n =>
    if n < 10 then [Char.ofNat (48 + n)]
    else natDecAux fuel (n / 10) ++ [Char.ofNat (48 + n % 10)]

/-- Decimal representation of a natural number. -/
def natDec (n : Nat) : JStr := natDecAux (n + 1) n

/-- Decimal representation of an integer (JS number-to-string for the
integral doubles of the embedding). -/
def intDec (i : Int) : JStr :=
  if i < 0 then '-' :: natDec i.natAbs else natDec i.natAbs

/-- `String(·)` on a number. -/
def numToStr : JNum → JStr
  | .finite i => intDec i
  | .nan => ['N', 'a', 'N']
  | .inf => "Infinity".toList
  | .neginf => '-' :: "Infinity".toList

mutual
/-- `String(·)` / template-literal interpolation: JS ToString restricted to
the embedding (objects stringify to `[object Object]`, arrays to the
comma-join of their elements with nullish elements rendered empty). -/
def jsToString : JsValue → JStr
  | .undefined => "undefined".toList
  | .null => "null".toList
  | .bool true => "true".toList
  | .bool false => "false".toList
  | .num n => numToStr n
  | .str s => s
  | .arr xs => arrToString xs
  | .obj _ => "[object Object]".toList

/-- Comma-join used by `Array.prototype.toString`; nullish elements render
as the empty string. -/
def arrToString : JsArr → JStr
  | .nil => []
  | .cons v .nil =>
    (match v with
     | .null => []
     | .undefined => []
     | w => jsToString w)
  | .cons v (.cons w t) =>
    (match v with
     | .null => []
     | .undefined => []
     | u => jsToString u) ++ ',' :: arrToString (.cons w t)
end

/-- Fold decimal digit characters into a natural number. -/
def digitsToNat (ds : JStr) : Nat :=
  ds.foldl (fun a c => a * 10 + (c.toNat - 48)) 0

/-- `Number(·)` on a string, restricted to the embedding: whitespace is
trimmed, the empty string converts to `0`, optional-sign decimal integers
and the `Infinity` forms convert exactly, everything else (including the
fractional and exponent forms outside the integer domain) to `NaN`. -/
def strToNum (s : JStr) : JNum :=
  let t := trimJs s
  if t = [] then .finite 0
  else if t = "Infinity".toList ∨ t = '+' :: "Infinity".toList then .inf
  else if t = '-' :: "Infinity".toList then .neginf
  else
    match t with
    | '-' :: ds => if ds ≠ [] ∧ ds.all (·.isDigit) then .finite (-(digitsToNat ds : Int)) else .nan
    | '+' :: ds => if ds ≠ [] ∧ ds.all (·.isDigit) then .finite (digitsToNat ds) else .nan
    | ds => if ds.all (·.isDigit) then .finite (digitsToNat ds) else .nan

/-- `Number(·)`: JS ToNumber restricted to the embedding (arrays and objects
convert through their string form, matching ToPrimitive). -/
def jsToNumber : JsValue → JNum
  | .undefined => .nan
  | .null => .finite 0
  | .bool true => .finite 1
  | .bool false => .finite 0
  | .num n => n
  | .str s => strToNum s
  | .arr xs => strToNum (arrToString xs)
  | .obj _ => .nan

/-- `Number.isFinite` (no coercion: non-numbers are not finite). -/
def isFiniteNum : JsValue → Bool
  | .num (.finite _) => true
  | _ => false

/-- `sanitizePromptText` (src/server.js:259-265): `String(value ?? '')`
followed by `.replace(/[\r\n]+/g, ' ').replace(/\s+/g, ' ').trim().slice(0, 160)`. -/
def sanitizePromptText (value : JsValue) : JStr :=
  List.take 160 (trimJs (squash (nlRepl (jsToString (coalesce value (.str []))))))

/-- Node `path.posix.basename`: trailing slashes are ignored and the part of
the path after the last remaining separator is returned. -/
def basenameJs (p : JStr) : JStr :=
  (((p.reverse.dropWhile (· = '/')).takeWhile (· ≠ '/')).reverse)

/-- One step of Node path normalization over an absolute path held as a
segment list: empty and `.` segments vanish, `..` pops the last segment
(at the root it stays at the root), anything else is appended. -/
def normStep (acc : List JStr) (seg : JStr) : List JStr :=
  if seg = [] ∨ seg = ['.'] then acc
  else if seg = ['.', '.'] then acc.dropLast
  else acc ++ [seg]

/-- Node `path.join(base, parts...)` for an absolute `base` (given as its
segment list) and slash-free extra parts: concatenation followed by
normalization. -/
def joinAbs (base : List JStr) (parts : List JStr) : List JStr :=
  parts.foldl normStep base

/-- The absolute path the auto-locate endpoint resolves and reads
(src/server.js:154-155): `path.join(__dirname, 'uploads', path.basename(filename))`,
with `__dirname` given as the segment list `base`. -/
def autolocateResolved (base : List JStr) (filename : JStr) : List JStr :=
  joinAbs base ["uploads".toList, basenameJs filename]

/-- `p` lies strictly inside the directory `dir` (both as segment lists):
`dir` is a proper prefix of `p`. -/
def strictlyInside (p dir : List JStr) : Prop :=
  p.take dir.length = dir ∧ dir.length < p.length

instance (p dir : List JStr) : Decidable (strictlyInside p dir) := by
  unfold strictlyInside; infer_instance

/-- A well-formed absolute directory for the segment model: no segment is
empty, `.` or `..`. -/
def validBase (base : List JStr) : Prop :=
  ∀ s ∈ base, s ≠ [] ∧ s ≠ ['.'] ∧ s ≠ ['.', '.']

/-- Hexadecimal digit characters, lowercase (as emitted by JS escaping). -/
def hexDig (n : Nat) : Char :=
  if n < 10 then Char.ofNat (48 + n) else Char.ofNat (87 + n)

/-- `JSON.stringify` escaping of one string character: quote, backslash and
the named control escapes, `\u00xx` for the remaining control characters,
everything else verbatim. -/
def escChar (c : Char) : JStr :=
  if c = '"' then ['\\', '"']
  else if c = '\\' then ['\\', '\\']
  else if c = '\n' then ['\\', 'n']
  else if c = '\r' then ['\\', 'r']
  else if c = '\t' then ['\\', 't']
  else if c = Char.ofNat 8 then ['\\', 'b']
  else if c = Char.ofNat 12 then ['\\', 'f']
  else if c.toNat < 32 then ['\\', 'u', '0', '0', hexDig (c.toNat / 16), hexDig (c.toNat % 16)]
  else [c]

/-- `JSON.stringify` escaping of a string body. -/
def escStr : JStr → JStr
  | [] => []
  | c :: t => escChar c ++ escStr t

/-- The indentation produced by `JSON.stringify(·, null, 2)` at nesting
depth `k`. -/
def indentChars (k : Nat) : JStr := List.replicate (2 * k) ' '

/-- JSON rendering of a number: non-finite doubles stringify to `null`. -/
def jnumJson : JNum → JStr
  | .finite i => intDec i
  | _ => "null".toList

/-- Lay out pre-rendered container entries the way `JSON.stringify(·, null, 2)`
does: each entry on its own line at depth `ind`, entries separated by commas. -/
def joinPretty (ind : Nat) : List JStr → JStr
  | [] => []
  | [l] => '\n' :: (indentChars ind ++ l)
  | l :: l2 :: ls => '\n' :: (indentChars ind ++ l ++ ',' :: joinPretty ind (l2 :: ls))

mutual
/-- `JSON.stringify(v, null, 2)` at nesting depth `ind`: the pretty-printed
JSON text of `v` (array elements that are `undefined` render as `null`,
object members with `undefined` values are omitted). -/
def strVal (ind : Nat) : JsValue → JStr
  | .null => "null".toList
  | .undefined => "null".toList
  | .bool true => "true".toList
  | .bool false => "false".toList
  | .num n => jnumJson n
  | .str s => '"' :: (escStr s ++ ['"'])
  | .arr xs =>
    let ls := itemLines (ind + 1) xs
    if ls = [] then ['[', ']']
    else '[' :: (joinPretty (ind + 1) ls ++ '\n' :: (indentChars ind ++ [']']))
  | .obj ms =>
    let ls := memberLines (ind + 1) ms
    if ls = [] then ['{', '}']
    else '{' :: (joinPretty (ind + 1) ls ++ '\n' :: (indentChars ind ++ ['}']))

/-- The rendered elements of an array (`undefined` renders as `null`,
matching `JSON.stringify`). -/
def itemLines (ind : Nat) : JsArr → List JStr
  | .nil => []
  | .cons v t => strVal ind v :: itemLines ind t

/-- The rendered `"key": value` texts of an object's members, skipping
members whose value is `undefined` as `JSON.stringify` does. -/
def memberLines (ind : Nat) : JsObj → List JStr
  | .nil => []
  | .cons k v t =>
    if v = .undefined then memberLines ind t
    else ('"' :: (escStr k ++ '"' :: ':' :: ' ' :: strVal ind v)) :: memberLines ind t
end

mutual
/-- JSON-representability for the round-trip claim: no `undefined` anywhere
and every number finite (exactly the values `JSON.stringify` re-reads
unchanged; non-finite numbers collapse to `null` and `undefined` members
are dropped). -/
def repOk : JsValue → Bool
  | .null => true
  | .undefined => false
  | .bool _ => true
  | .num (.finite _) => true
  | .num _ => false
  | .str _ => true
  | .arr xs => repOkArr xs
  | .obj ms => repOkObj ms

/-- `repOk` on every element. -/
def repOkArr : JsArr → Bool
  | .nil => true
  | .cons v t => repOk v && repOkArr t

/-- `repOk` on every member value. -/
def repOkObj : JsObj → Bool
  | .nil => true
  | .cons _ v t => repOk v && repOkObj t
end

/-- The whitespace JSON.parse skips between tokens. -/
def jws (c : Char) : Bool := c = ' ' || c = '\t' || c = '\n' || c = '\r'

/-- Skip inter-token whitespace. -/
def skipWs (l : JStr) : JStr := l.dropWhile jws

/-- Value of a hexadecimal digit character. -/
def hexVal (c : Char) : Option Nat :=
  if 48 ≤ c.toNat ∧ c.toNat ≤ 57 then some (c.toNat - 48)
  else if 97 ≤ c.toNat ∧ c.toNat ≤ 102 then some (c.toNat - 87)
  else if 65 ≤ c.toNat ∧ c.toNat ≤ 70 then some (c.toNat - 55)
  else none

/-- The single-character JSON string escapes. -/
def unescChar (e : Char) : Option Char :=
  if e = '"' then some '"'
  else if e = '\\' then some '\\'
  else if e = '/' then some '/'
  else if e = 'b' then some (Char.ofNat 8)
  else if e = 'f' then some (Char.ofNat 12)
  else if e = 'n' then some '\n'
  else if e = 'r' then some '\r'
  else if e = 't' then some '\t'
  else none

/-- Parse the body of a JSON string literal (after the opening quote) up to
and including the closing quote; returns the decoded body and the remaining
input. -/
def parseStrBody : JStr → Option (JStr × JStr)
  | [] => none
  | c :: r =>
    if c = '"' then some ([], r)
    else if c = '\\' then
      match r with
      | 'u' :: a :: b :: c2 :: d :: r2 =>
        match hexVal a, hexVal b, hexVal c2, hexVal d with
        | some ha, some hb, some hc, some hd =>
          (match parseStrBody r2 with
           | some (s, r3) => some (Char.ofNat (((ha * 16 + hb) * 16 + hc) * 16 + hd) :: s, r3)
           | none => none)
        | _, _, _, _ => none
      | e :: r2 =>
        (match unescChar e with
         | some ch =>
           (match parseStrBody r2 with
            | some (s, r3) => some (ch :: s, r3)
            | none => none)
         | none => none)
      | [] => none
    else
      match parseStrBody r with
      | some (s, r2) => some (c :: s, r2)
      | none => none

/-- Parse a run of decimal digits as a natural number (rejecting the
fractional and exponent forms that fall outside the embedding's integer
domain). -/
def parseNumFrom (l : JStr) : Option (Nat × JStr) :=
  let p := l.span (·.isDigit)
  if p.1 = [] then none
  else
    match p.2 with
    | c :: _ => if c = '.' ∨ c = 'e' ∨ c = 'E' then none else some (digitsToNat p.1, p.2)
    | [] => some (digitsToNat p.1, [])

/-- Parser mode: which production of the JSON grammar is being read, with
the elements accumulated so far for the container loops. -/
inductive PMode where
  | val
  | arrStart
  | arrRest (acc : JsArr)
  | objStart
  | objRest (acc : JsObj)

/-- One recursive JSON parser (model of `JSON.parse` over the embedding's
domain), structured on a fuel argument so that it is kernel-evaluable; a
fuel of `input length + 2` always suffices for inputs produced by
`strVal` (proved below). -/
def parseStep : Nat → PMode → JStr → Option (JsValue × JStr)
  | 0, _, _ => none
  | fuel + 1, .val, l =>
    match skipWs l with
    | [] => none
    | c :: r =>
      if c.isDigit then
        match parseNumFrom (c :: r) with
        | some (n, r2) => some (.num (.finite (n : Int)), r2)
        | none => none
      else if c = '-' then
        match parseNumFrom r with
        | some (n, r2) => some (.num (.finite (-(n : Int))), r2)
        | none => none
      else if c = '"' then
        match parseStrBody r with
        | some (s, r2) => some (.str s, r2)
        | none => none
      else if c = '[' then parseStep fuel .arrStart r
      else if c = '{' then parseStep fuel .objStart r
      else
        match c :: r with
        | 'n' :: 'u' :: 'l' :: 'l' :: r2 => some (.null, r2)
        | 't' :: 'r' :: 'u' :: 'e' :: r2 => some (.bool true, r2)
        | 'f' :: 'a' :: 'l' :: 's' :: 'e' :: r2 => some (.bool false, r2)
        | _ => none
  | fuel + 1, .arrStart, l =>
    match skipWs l with
    | [] => none
    | c :: r =>
      if c = ']' then some (.arr .nil, r)
      else
        match parseStep fuel .val (c :: r) with
        | some (v, r2) => parseStep fuel (.arrRest (.cons v .nil)) r2
        | none => none
  | fuel + 1, .arrRest acc, l =>
    match skipWs l with
    | [] => none
    | c :: r =>
      if c = ',' then
        match parseStep fuel .val r with
        | some (v, r2) => parseStep fuel (.arrRest (acc.snocA v)) r2
        | none => none
      else if c = ']' then some (.arr acc, r)
      else none
  | fuel + 1, .objStart, l =>
    match skipWs l with
    | [] => none
    | c :: r =>
      if c = '}' then some (.obj .nil, r)
      else if c = '"' then
        match parseStrBody r with
        | some (k, r2) =>
          (match skipWs r2 with
           | ':' :: r3 =>
             (match parseStep fuel .val r3 with
              | some (v, r4) => parseStep fuel (.objRest (.cons k v .nil)) r4
              | none => none)
           | _ => none)
        | none => none
      else none
  | fuel + 1, .objRest acc, l =>
    match skipWs l with
    | [] => none
    | c :: r =>
      if c = '}' then some (.obj acc, r)
      else if c = ',' then
        match skipWs r with
        | '"' :: r2 =>
          (match parseStrBody r2 with
           | some (k, r3) =>
             (match skipWs r3 with
              | ':' :: r4 =>
                (match parseStep fuel .val r4 with
                 | some (v, r5) => parseStep fuel (.objRest (acc.snocO k v)) r5
                 | none => none)
              | _ => none)
           | none => none)
        | _ => none
      else none

/-- `JSON.parse` (model): parse one value and require only whitespace to
remain. -/
def jsonParse (l : JStr) : Option JsValue :=
  match parseStep (l.length + 2) .val l with
  | some (v, rest) => if skipWs rest = [] then some v else none
  | none => none

/-- `String.prototype.indexOf` for a single character: index of the first
occurrence, `-1` when absent. -/
def jsIndexOf (l : JStr) (c : Char) : Int :=
  match l with
  | [] => -1
  | a :: t =>
    if a = c then 0
    else
      let r := jsIndexOf t c
      if r = -1 then -1 else r + 1

/-- `String.prototype.lastIndexOf` for a single character: index of the last
occurrence, `-1` when absent. -/
def jsLastIndexOf (l : JStr) (c : Char) : Int :=
  let r := jsIndexOf l.reverse c
  if r = -1 then -1 else (l.length : Int) - 1 - r

/-- `String.prototype.slice(s, e)` for the in-range non-negative indices the
source uses. -/
def jsSlice (l : JStr) (s e : Int) : JStr := (l.take e.toNat).drop s.toNat

/-- `extractJsonFromText` (src/server.js:267-282), parametric in the JSON
parser (`parse` stands for the strict `JSON.parse`, returning `none` on a
parse error; `jsonParse` is the embedding's instance). -/
def extractJsonFromText (parse : JStr → Option JsValue) (text : JStr) : Option JsValue :=
  if text = [] then none
  else
    let first := jsIndexOf text '{'
    let last := jsLastIndexOf text '}'
    if first = -1 ∨ last = -1 ∨ last ≤ first then none
    else parse (jsSlice text first (last + 1))

/-- The file-system state visible to the handlers: existing directories and
files (path to content). -/
structure FileSys where
  dirs : List JStr
  files : List (JStr × JStr)
deriving DecidableEq, Repr

/-- `fs.existsSync`. -/
def existsSyncFS (fs : FileSys) (p : JStr) : Bool :=
  fs.dirs.contains p || (fs.files.lookup p).isSome

/-- `fs.writeFileSync` (create or overwrite). -/
def writeFileFS (fs : FileSys) (p : JStr) (content : JStr) : FileSys :=
  { fs with files := (p, content) :: fs.files.filter (fun kv => kv.1 != p) }

/-- Read back a written file. -/
def readFileFS (fs : FileSys) (p : JStr) : Option JStr := fs.files.lookup p

/-- Response body `{error: 'Dati non validi'}`. -/
def errInvalidData : JsValue :=
  .obj (.cons ("error".toList) (.str ("Dati non validi".toList)) .nil)

/-- Response body of a successful save. -/
def saveOkBody (filename : JStr) : JsValue :=
  .obj (.cons ("success".toList) (.bool true)
    (.cons ("message".toList) (.str ("Coordinate salvate con successo".toList))
      (.cons ("filePath".toList) (.str filename) .nil)))

/-- Response body of the 500 catch-all of the save endpoint. -/
def errSaveFail : JsValue :=
  .obj (.cons ("error".toList)
    (.str ("Errore durante il salvataggio delle coordinate".toList)) .nil)

/-- The data directory literal `'data/'`. -/
def dataDirLit : JStr := "data/".toList

/-- The generated snapshot filename `coordinates_<epoch-ms>.json`. -/
def snapshotName (now : Nat) : JStr :=
  ("coordinates_".toList) ++ natDec now ++ (".json".toList)

/-- `path.join('data/', filename)`. -/
def snapshotPath (now : Nat) : JStr := dataDirLit ++ snapshotName now

/-- The object written by the save endpoint:
`{imageName, points, timestamp}`. -/
def snapshotData (imageName points : JsValue) (ts : JStr) : JsValue :=
  .obj (.cons ("imageName".toList) imageName
    (.cons ("points".toList) points
      (.cons ("timestamp".toList) (.str ts) .nil)))

/-- `POST /api/save-coordinates` (src/server.js:81-114) as a state
transformer: from the parsed request body, the file system, the epoch
milliseconds and the ISO timestamp string to `(status, response body)` and
the new file system.  The destructuring of a nullish body throws and is
caught by the 500 handler; `express.json` never produces a nullish body. -/
def saveCoordinates (body : JsValue) (fs : FileSys) (now : Nat) (ts : JStr) :
    (Nat × JsValue) × FileSys :=
  match getMem body ("imageName".toList), getMem body ("points".toList) with
  | some imageName, some points =>
    if !truthy imageName || !truthy points || !isArrayJs points then
      ((400, errInvalidData), fs)
    else
      let fs1 := if existsSyncFS fs dataDirLit then fs
                 else { fs with dirs := dataDirLit :: fs.dirs }
      let content := strVal 0 (snapshotData imageName points ts)
      ((200, saveOkBody (snapshotName now)), writeFileFS fs1 (snapshotPath now) content)
  | _, _ => ((500, errSaveFail), fs)

/-- Outcome of the auto-locate endpoint up to the point where the image has
been read (src/server.js:147-159): the two 400 validations, the 404
existence check, a thrown `TypeError` (caught by the 502 handler), or
proceeding with the resolved absolute path. -/
inductive ALEarly where
  | badModel
  | badFilename
  | notFound
  | thrown
  | proceed (absolutePath : List JStr)
deriving DecidableEq, Repr

/-- The early phase of `POST /api/ollama/autolocate`: destructure
`req.body || {}`, validate `model` and `filename`, resolve the path and
check existence (`exf` is `fs.existsSync` on the host, as a predicate on
absolute paths in segment form; `base` is `__dirname`). -/
def autolocateEarly (base : List JStr) (body : JsValue) (exf : List JStr → Bool) : ALEarly :=
  let b := jsOr body (.obj .nil)
  match getMem b ("model".toList), getMem b ("filename".toList) with
  | some model, some filename =>
    if !truthy model then .badModel
    else if !truthy filename then .badFilename
    else
      match filename with
      | .str s =>
        let absolutePath := autolocateResolved base s
        if !exf absolutePath then .notFound else .proceed absolutePath
      | _ => .thrown
  | _, _ => .thrown

/-- The JSON body of a successful auto-locate response
(src/server.js:181-187), from the extracted value (`parsed`, `none` when
extraction returned null) and the trimmed response text. -/
def autoLocateSuccessBody (parsed : Option JsValue) (rawText : JStr) : JsValue :=
  let p : JsValue := match parsed with | none => .null | some v => v
  .obj (.cons ("success".toList) (.bool true)
    (.cons ("suggestions".toList)
      (if isArrayJs (getQ p ("mapPoints".toList)) then getQ p ("mapPoints".toList) else .arr .nil)
      (.cons ("pose".toList) (jsOr (getQ p ("estimatedPose".toList)) .null)
        (.cons ("analysis".toList)
          (jsOr (getQ p ("analysis".toList))
            (jsOr (getQ p ("reasoning".toList)) (.str rawText)))
          (.cons ("raw".toList) (.str rawText) .nil)))))

/-- The success path of the auto-locate endpoint after the upstream payload
arrives (src/server.js:178-187): `rawText = (payload.response || '').trim()`,
extraction, and response assembly.  `none` models a thrown error (`.trim` on
a truthy non-string, or property access on a nullish payload), caught by the
502 handler. -/
def autolocateSuccess (payload : JsValue) : Option JsValue :=
  match getMem payload ("response".toList) with
  | none => none
  | some resp =>
    match jsOr resp (.str []) with
    | .str s =>
      let rawText := trimJs s
      some (autoLocateSuccessBody (extractJsonFromText jsonParse rawText) rawText)
    | _ => none

/-- The projection of one upstream model record (src/server.js:125-132);
`none` models the `TypeError` thrown on a nullish record. -/
def projectModel (m : JsValue) : Option JsValue := do
  let name ← getMem m ("name".toList)
  let modified ← getMem m ("modified_at".toList)
  let size ← getMem m ("size".toList)
  let details ← getMem m ("details".toList)
  let modelField ← getMem m ("model".toList)
  some (.obj (.cons ("name".toList) name
    (.cons ("modified".toList) modified
      (.cons ("size".toList) size
        (.cons ("parameterSize".toList) (coalesce (getQ details ("parameter_size".toList)) .null)
          (.cons ("quantization".toList) (coalesce (getQ details ("quantization_level".toList)) .null)
            (.cons ("family".toList)
              (coalesce (getQ details ("family".toList)) (coalesce modelField .null)) .nil)))))))

/-- `payload.models.map(projectModel)`. -/
def mapProject : JsArr → Option JsArr
  | .nil => some .nil
  | .cons m t => do
    let pm ← projectModel m
    let pt ← mapProject t
    some (.cons pm pt)

/-- The models value computed by `GET /api/ollama/models` on upstream
success (src/server.js:123-134): the projected list when `payload.models`
is an array, the empty list otherwise. -/
def modelsValue (payload : JsValue) : Option JsValue := do
  let modelsField ← getMem payload ("models".toList)
  match modelsField with
  | .arr xs => (mapProject xs).map (fun ys => JsValue.arr ys)
  | _ => some (.arr .nil)

/-- `Number.prototype.toFixed(4)` on the integral doubles of the
embedding. -/
def toFixed4 (i : Int) : JStr := intDec i ++ (".0000".toList)

/-- `Array.prototype.join(sep)` over pre-rendered strings. -/
def joinStr (sep : JStr) : List JStr → JStr
  | [] => []
  | [x] => x
  | x :: y :: t => x ++ sep ++ joinStr sep (y :: t)

/-- The fallback sentence of `formatExistingPoints`. -/
def noPointsSentence : JStr :=
  ("Nessun punto immagine precedente: proponi tu i landmark più distintivi.").toList

/-- The header line of the annotated-points list. -/
def pointsHeader : JStr := ("Punti immagine già annotati:").toList

/-- The line built for one existing point (the body of the `map` callback in
`formatExistingPoints`, src/server.js:245-254); `none` models the
`TypeError` thrown when the element is nullish. -/
def pointLine (index : Nat) (point : JsValue) : Option JStr := do
  let labelRaw ← getMem point ("label".toList)
  let idRaw ← getMem point ("id".toList)
  let xRaw ← getMem point ("xNorm".toList)
  let nxRaw ← getMem point ("normalizedX".toList)
  let yRaw ← getMem point ("yNorm".toList)
  let nyRaw ← getMem point ("normalizedY".toList)
  let descRaw ← getMem point ("description".toList)
  let label := sanitizePromptText
    (jsOr labelRaw (.str ('P' :: jsToString (coalesce idRaw (.num (.finite (index + 1)))))))
  let xNorm : JNum := if isFiniteNum xRaw then jsToNumber xRaw else jsToNumber nxRaw
  let yNorm : JNum := if isFiniteNum yRaw then jsToNumber yRaw else jsToNumber nyRaw
  let coords := joinStr (", ".toList)
    ((match xNorm with
      | .finite i => [("xNorm=".toList) ++ toFixed4 i]
      | _ => []) ++
     (match yNorm with
      | .finite i => [("yNorm=".toList) ++ toFixed4 i]
      | _ => []))
  let note := if truthy descRaw then (", descrizione: ".toList) ++ sanitizePromptText descRaw
              else []
  some (("- ".toList) ++ label ++
    (if coords ≠ [] then (" (".toList) ++ coords ++ [')'] else []) ++ note)

/-- The lines of `points.slice(0, 12).map(...)`, with their indices. -/
def pointLinesOpt (index : Nat) : JsArr → Option (List JStr)
  | .nil => some []
  | .cons p t => do
    let l ← pointLine index p
    let ls ← pointLinesOpt (index + 1) t
    some (l :: ls)

/-- `formatExistingPoints` (src/server.js:241-257): the fallback sentence
for a non-array or empty argument, otherwise the header plus the lines of
the first 12 points. -/
def formatExistingPoints (points : JsValue) : Option JStr :=
  match points with
  | .arr (.cons x t) => do
    let ls ← pointLinesOpt 0 ((JsArr.cons x t).takeA 12)
    some (pointsHeader ++ '\n' :: joinStr ['\n'] ls)
  | _ => some noPointsSentence

/-- The intro sentences of the auto-locate prompt (joined with spaces, as in
src/server.js:217-222). -/
def introText : JStr :=
  ("Sei un assistente di geolocalizzazione che analizza immagini urbane e deve proporre corrispondenze su OpenStreetMap. Per ogni punto importante individua latitudine, longitudine e un'altitudine stimata (in metri). Utilizza i punti immagine già noti (coordinate normalizzate 0-1) per capire dove posizionare i marker. Rispondi SOLO con JSON valido.").toList

/-- The JSON schema block of the prompt (the lines of
src/server.js:224-237 joined with newlines). -/
def schemaText : JStr :=
  ("\x7b\n  \"mapPoints\": [\n    \x7b\n      \"description\": \"breve testo\",\n      \"confidence\": 0.0-1.0,\n      \"imagePoint\": \x7b \"xNorm\": numero, \"yNorm\": numero \x7d,\n      \"mapPoint\": \x7b \"lat\": numero, \"lng\": numero, \"altitude\": numero opzionale \x7d\n    \x7d\n  ],\n  \"estimatedPose\": \x7b \"lat\": numero, \"lng\": numero, \"altitude\": numero, \"heading\": numero, \"tilt\": numero \x7d,\n  \"analysis\": \"massimo due frasi che riassumono il ragionamento\"\n\x7d").toList

/-- The closing instruction line of the prompt. -/
def promptClosing : JStr :=
  ("Fornisci almeno tre punti se possibile e compila sempre i campi numerici.").toList

/-- `buildAutoLocatePrompt` (src/server.js:216-239). -/
def buildAutoLocatePrompt (existingPoints : JsValue) : Option JStr := do
  let fp ← formatExistingPoints existingPoints
  some (introText ++ '\n' :: (fp ++ '\n' :: (promptClosing ++ '\n' :: schemaText)))

/-! Helper lemmas for the path model (claims C1 and C6). -/

/-- `basenameJs` never contains a path separator. -/
theorem basenameJs_no_slash (p : JStr) : '/' ∉ basenameJs p := by
  intro h
  unfold basenameJs at h
  rw [List.mem_reverse] at h
  have := List.mem_takeWhile_imp h
  simp at this

/-- Resolution of the auto-locate path, decomposed along the shape of the
basename. -/
theorem autolocateResolved_eq (base : List JStr) (f : JStr) :
    autolocateResolved base f =
      (if basenameJs f = [] ∨ basenameJs f = ['.'] then base ++ ["uploads".toList]
       else if basenameJs f = ['.', '.'] then base
       else base ++ ["uploads".toList, basenameJs f]) := by
  unfold autolocateResolved joinAbs
  simp only [List.foldl_cons, List.foldl_nil]
  have h1 : normStep base ("uploads".toList) = base ++ ["uploads".toList] := by
    unfold normStep
    simp
  rw [h1]
  unfold normStep
  by_cases h2 : basenameJs f = [] ∨ basenameJs f = ['.']
  · rw [if_pos h2, if_pos h2]
  · rw [if_neg h2, if_neg h2]
    by_cases h3 : basenameJs f = ['.', '.']
    · rw [if_pos h3, if_pos h3]
      exact List.dropLast_concat
    · rw [if_neg h3, if_neg h3]
      simp

/-- Claim C1, counterexample: for the traversal filename `..` the resolved
path `path.join(__dirname, 'uploads', basename('..'))` normalizes to
`__dirname` itself, which is not strictly inside the upload directory, so
the claim as stated fails. -/
theorem c1_cex :
    ¬ strictlyInside (autolocateResolved [['s', 'r', 'v']] ['.', '.'])
        ([['s', 'r', 'v']] ++ ["uploads".toList]) := by
  decide

/-- Claim C1 (amended): the endpoint resolves and reads exactly
`path.join(__dirname, 'uploads', basename(filename))`; since the basename
contains no separator, this path is strictly inside the upload directory
for every filename whose basename is not `''`, `'.'` or `'..'`; in those
three residual cases it is the upload directory itself (for `''` and `'.'`)
or its parent `__dirname` (for `'..'`), never anything further outside. -/
theorem c1_path_containment (base : List JStr) (f : JStr) :
    (¬(basenameJs f = [] ∨ basenameJs f = ['.'] ∨ basenameJs f = ['.', '.']) →
      strictlyInside (autolocateResolved base f) (base ++ ["uploads".toList])) ∧
    ((basenameJs f = [] ∨ basenameJs f = ['.']) →
      autolocateResolved base f = base ++ ["uploads".toList]) ∧
    (basenameJs f = ['.', '.'] → autolocateResolved base f = base) := by
  refine ⟨?_, ?_, ?_⟩
  · intro h
    rw [autolocateResolved_eq, if_neg (fun h2 => h (h2.elim Or.inl (Or.inr ∘ Or.inl))),
      if_neg (fun h3 => h (Or.inr (Or.inr h3)))]
    constructor
    · rw [show base ++ ["uploads".toList, basenameJs f] =
        (base ++ ["uploads".toList]) ++ [basenameJs f] by simp]
      exact List.take_left _ _
    · simp
  · intro h
    rw [autolocateResolved_eq, if_pos h]
  · intro h
    rw [autolocateResolved_eq, if_neg (by simp [h]), if_pos h]

/-- Claim C1, witness: for `'../../etc/passwd'` the basename is `passwd`
and the resolved path is strictly inside the upload directory. -/
theorem c1_path_containment_witness :
    strictlyInside (autolocateResolved [['s', 'r', 'v']] ("../../etc/passwd".toList))
      ([['s', 'r', 'v']] ++ ["uploads".toList]) :=
  (c1_path_containment [['s', 'r', 'v']] ("../../etc/passwd".toList)).1 (by decide)

/-- Claim C2: a save-coordinates request whose body (a non-nullish value,
as `express.json` guarantees) lacks `imageName`, lacks `points`, or has a
non-array `points`, gets a 400 response with the `Dati non validi` error
body and leaves the file system unchanged: no file and no directory is
created. -/
theorem c2_save_rejects_invalid (body : JsValue) (fs : FileSys) (now : Nat) (ts : JStr)
    (imageName points : JsValue)
    (him : getMem body ("imageName".toList) = some imageName)
    (hpt : getMem body ("points".toList) = some points)
    (hbad : imageName = .undefined ∨ points = .undefined ∨ isArrayJs points = false) :
    saveCoordinates body fs now ts = ((400, errInvalidData), fs) := by
  unfold saveCoordinates
  rw [him, hpt]
  rcases hbad with h | h | h
  · subst h; simp [truthy]
  · subst h; simp [truthy]
  · simp [h]

/-- Claim C2, witness: a body carrying `imageName` but no `points` is
rejected with 400 and an unchanged file system. -/
theorem c2_save_rejects_invalid_witness :
    saveCoordinates (.obj (.cons ("imageName".toList) (.str ['a']) .nil))
      ⟨[], []⟩ 7 ['t'] = ((400, errInvalidData), ⟨[], []⟩) :=
  c2_save_rejects_invalid _ _ _ _ (.str ['a']) .undefined rfl rfl
    (Or.inr (Or.inl rfl))

/-- Claim C6, counterexample: with an empty `model` and a filename absent
from the upload directory the endpoint answers the model validation (400),
not 404, so "regardless of the value of `model`" fails as stated. -/
theorem c6_cex :
    autolocateEarly [['s', 'r', 'v']]
      (.obj (.cons ("model".toList) (.str [])
        (.cons ("filename".toList) (.str ("ghost.png".toList)) .nil)))
      (fun _ => false) = .badModel ∧
    ALEarly.badModel ≠ ALEarly.notFound := by
  constructor
  · rfl
  · decide

/-- Claim C6 (amended): when `model` and `filename` are both truthy,
`filename` is a string, and the resolved path does not exist on disk, the
endpoint returns 404 — this holds regardless of which truthy `model` value
is supplied; a missing or empty `model` (or `filename`) instead fails the
400 validations that run first. -/
theorem c6_missing_file_404 (base : List JStr) (body : JsValue) (exf : List JStr → Bool)
    (model filename : JsValue) (s : JStr)
    (hm : getMem (jsOr body (.obj .nil)) ("model".toList) = some model)
    (hf : getMem (jsOr body (.obj .nil)) ("filename".toList) = some filename)
    (htm : truthy model = true)
    (hfs : filename = .str s) (hs : s ≠ [])
    (hex : exf (autolocateResolved base s) = false) :
    autolocateEarly base body exf = .notFound := by
  subst hfs
  unfold autolocateEarly
  simp only [hm, hf, htm]
  simp [truthy, hs, hex]

/-- Claim C6, witness: a truthy model and a string filename refer to a file
absent from an empty disk; the endpoint answers 404. -/
theorem c6_missing_file_404_witness :
    autolocateEarly [['s', 'r', 'v']]
      (.obj (.cons ("model".toList) (.str ("llava".toList))
        (.cons ("filename".toList) (.str ("ghost.png".toList)) .nil)))
      (fun _ => false) = .notFound :=
  c6_missing_file_404 _ _ _ (.str ("llava".toList)) (.str ("ghost.png".toList))
    ("ghost.png".toList) rfl rfl rfl rfl (by decide) rfl

/-- Claim C10: prompt construction is total over `existingPoints`: for every
value that is not an array, and for the empty array, `formatExistingPoints`
returns the fixed fallback sentence and `buildAutoLocatePrompt` succeeds,
splicing that sentence into the prompt. -/
theorem c10_prompt_total (v : JsValue)
    (h : isArrayJs v = false ∨ v = .arr .nil) :
    formatExistingPoints v = some noPointsSentence ∧
    buildAutoLocatePrompt v =
      some (introText ++ '\n' :: (noPointsSentence ++ '\n' ::
        (promptClosing ++ '\n' :: schemaText))) := by
  have hfp : formatExistingPoints v = some noPointsSentence := by
    rcases h with h | h
    · cases v with
      | arr xs => simp [isArrayJs] at h
      | null => rfl
      | undefined => rfl
      | bool b => rfl
      | num n => rfl
      | str s => rfl
      | obj ms => rfl
    · subst h; rfl
  refine ⟨hfp, ?_⟩
  unfold buildAutoLocatePrompt
  rw [hfp]
  rfl

/-- Claim C10, witness: at `existingPoints = null` (the value the endpoint
leaves in place when the client sends an explicit `null`) the prompt is
built with the fallback sentence. -/
theorem c10_prompt_total_witness :
    formatExistingPoints .null = some noPointsSentence ∧
    buildAutoLocatePrompt .null =
      some (introText ++ '\n' :: (noPointsSentence ++ '\n' ::
        (promptClosing ++ '\n' :: schemaText))) :=
  c10_prompt_total .null (Or.inl rfl)

/-- The projection of one model record as the amended claim words it:
the record maps to exactly `{name, modified, size, parameterSize,
quantization, family}`; `parameterSize` and `quantization` default to
`null` when the nested details field is absent (or nullish); `family`
defaults first to the record's top-level `model` field and then to `null`
(spec-side definition, to be compared with `projectModel`). -/
def projectModelSpec (m : JsValue) : Option JsValue :=
  match m with
  | .null => none
  | .undefined => none
  | _ =>
    some (.obj (.cons ("name".toList) (getQ m ("name".toList))
      (.cons ("modified".toList) (getQ m ("modified_at".toList))
        (.cons ("size".toList) (getQ m ("size".toList))
          (.cons ("parameterSize".toList)
            (match getQ (getQ m ("details".toList)) ("parameter_size".toList) with
             | .null => JsValue.null
             | .undefined => JsValue.null
             | v => v)
            (.cons ("quantization".toList)
              (match getQ (getQ m ("details".toList)) ("quantization_level".toList) with
               | .null => JsValue.null
               | .undefined => JsValue.null
               | v => v)
              (.cons ("family".toList)
                (match getQ (getQ m ("details".toList)) ("family".toList) with
                 | .null =>
                   (match getQ m ("model".toList) with
                    | .null => JsValue.null
                    | .undefined => JsValue.null
                    | w => w)
                 | .undefined =>
                   (match getQ m ("model".toList) with
                    | .null => JsValue.null
                    | .undefined => JsValue.null
                    | w => w)
                 | v => v) .nil)))))))

/-- Nullish coalescing, written as the case split the claim describes. -/
theorem coalesce_eq_match (a b : JsValue) :
    coalesce a b = (match a with | .null => b | .undefined => b | v => v) := by
  cases a <;> rfl

/-- Claim C7, counterexample: a record with no `details` but a top-level
`model` field projects `family` to that field's value, not to `null` as the
claim states. -/
theorem c7_cex :
    (projectModel (.obj (.cons ("name".toList) (.str ['n'])
        (.cons ("model".toList) (.str ['m']) .nil)))).map
      (fun r => getQ r ("family".toList)) = some (.str ['m']) ∧
    JsValue.str ['m'] ≠ JsValue.null := by
  constructor
  · rfl
  · decide

/-- Claim C7 (amended): on a successful upstream payload every model record
is projected to exactly `{name, modified, size, parameterSize,
quantization, family}` with `parameterSize` and `quantization`
null-coalescing to `null` when the nested details fields are absent, while
`family` null-coalesces first to the record's top-level `model` field and
only then to `null`; the endpoint computes the mapped list when
`payload.models` is an array and the empty list otherwise. -/
theorem c7_models_projection (payload m v : JsValue) :
    (projectModel m = projectModelSpec m) ∧
    (getMem payload ("models".toList) = some v → isArrayJs v = false →
      modelsValue payload = some (.arr .nil)) ∧
    (∀ xs, getMem payload ("models".toList) = some (.arr xs) →
      modelsValue payload = (mapProject xs).map JsValue.arr) := by
  refine ⟨?_, ?_, ?_⟩
  · cases m with
    | obj ms => simp [projectModel, projectModelSpec, getQ, getMem, coalesce_eq_match]
    | null => rfl
    | undefined => rfl
    | bool b => rfl
    | num n => rfl
    | str s => rfl
    | arr xs => simp [projectModel, projectModelSpec, getQ, getMem, coalesce_eq_match]
  · intro h hv
    unfold modelsValue
    rw [h]
    cases v with
    | arr xs => simp [isArrayJs] at hv
    | null => rfl
    | undefined => rfl
    | bool b => rfl
    | num n => rfl
    | str s => rfl
    | obj ms => rfl
  · intro xs h
    unfold modelsValue
    rw [h]
    rfl

/-- Claim C7, witness: a two-record payload (one full record, one with no
details but a `model` field) is mapped through the projection. -/
theorem c7_models_projection_witness :
    modelsValue (.obj (.cons ("models".toList)
      (.arr (.cons (.obj (.cons ("name".toList) (.str ['a'])
          (.cons ("details".toList)
            (.obj (.cons ("family".toList) (.str ['f']) .nil)) .nil)))
        (.cons (.obj (.cons ("name".toList) (.str ['b'])
          (.cons ("model".toList) (.str ['m']) .nil))) .nil))) .nil)) =
    (mapProject (.cons (.obj (.cons ("name".toList) (.str ['a'])
          (.cons ("details".toList)
            (.obj (.cons ("family".toList) (.str ['f']) .nil)) .nil)))
        (.cons (.obj (.cons ("name".toList) (.str ['b'])
          (.cons ("model".toList) (.str ['m']) .nil))) .nil))).map JsValue.arr :=
  (c7_models_projection _ .null .null).2.2 _ rfl

/-- `i` is the index of the first occurrence of `c` in `l`. -/
def isFirstIdx (l : JStr) (c : Char) (i : Nat) : Prop :=
  l[i]? = some c ∧ ∀ k, k < i → l[k]? ≠ some c

/-- `j` is the index of the last occurrence of `c` in `l`. -/
def isLastIdx (l : JStr) (c : Char) (j : Nat) : Prop :=
  l[j]? = some c ∧ ∀ k, k < l.length → j < k → l[k]? ≠ some c

instance (l : JStr) (c : Char) (i : Nat) : Decidable (isFirstIdx l c i) := by
  unfold isFirstIdx; infer_instance

instance (l : JStr) (c : Char) (j : Nat) : Decidable (isLastIdx l c j) := by
  unfold isLastIdx; infer_instance

/-- `indexOf` returns `-1` exactly on absence. -/
theorem jsIndexOf_of_not_mem (l : JStr) (c : Char) (h : c ∉ l) :
    jsIndexOf l c = -1 := by
  induction l with
  | nil => rfl
  | cons a t ih =>
    have ha : a ≠ c := fun he => h (he ▸ List.mem_cons_self a t)
    have ht : c ∉ t := fun hm => h (List.mem_cons_of_mem a hm)
    unfold jsIndexOf
    simp [ha, ih ht]

/-- `indexOf` returns the index of the first occurrence. -/
theorem jsIndexOf_of_isFirstIdx (l : JStr) (c : Char) :
    ∀ i : Nat, isFirstIdx l c i → jsIndexOf l c = (i : Int) := by
  induction l with
  | nil =>
    intro i hi
    simp [isFirstIdx] at hi
  | cons a t ih =>
    intro i hi
    obtain ⟨hget, hfirst⟩ := hi
    cases i with
    | zero =>
      simp at hget
      unfold jsIndexOf
      simp [hget]
    | succ j =>
      have ha : a ≠ c := by
        have := hfirst 0 (Nat.succ_pos j)
        simpa using this
      have hj : isFirstIdx t c j := by
        constructor
        · simpa using hget
        · intro k hk
          have := hfirst (k + 1) (Nat.succ_lt_succ hk)
          simpa using this
      unfold jsIndexOf
      rw [ih j hj]
      simp [ha]

/-- `lastIndexOf` returns the index of the last occurrence. -/
theorem jsLastIndexOf_of_isLastIdx (l : JStr) (c : Char) (j : Nat)
    (hj : isLastIdx l c j) : jsLastIndexOf l c = (j : Int) := by
  obtain ⟨hget, hlast⟩ := hj
  have hjlt : j < l.length := by
    by_contra hge
    rw [List.getElem?_eq_none (Nat.le_of_not_lt hge)] at hget
    exact Option.noConfusion hget
  have hrev : isFirstIdx l.reverse c (l.length - 1 - j) := by
    constructor
    · rw [List.getElem?_reverse (by omega)]
      have : l.length - 1 - (l.length - 1 - j) = j := by omega
      rw [this]
      exact hget
    · intro k hk
      rw [List.getElem?_reverse (by omega)]
      exact hlast (l.length - 1 - k) (by omega) (by omega)
  unfold jsLastIndexOf
  rw [jsIndexOf_of_isFirstIdx l.reverse c _ hrev]
  rw [if_neg (by omega)]
  omega

/-- Claim C3: `extractJsonFromText` returns `null` on the empty text, on a
text with no `{` or no `}`, and when the last `}` is not after the first
`{`; otherwise it returns exactly the JSON parse of the substring from the
first `{` to the last `}` inclusive (and hence `null` whenever that parse
fails, without raising an error).  `parse` stands for strict `JSON.parse`;
`jsonParse` is the embedding's instance. -/
theorem c3_extract_characterization (parse : JStr → Option JsValue) (text : JStr) :
    (text = [] → extractJsonFromText parse text = none) ∧
    ('{' ∉ text → extractJsonFromText parse text = none) ∧
    ('}' ∉ text → extractJsonFromText parse text = none) ∧
    (∀ i j : Nat, isFirstIdx text '{' i → isLastIdx text '}' j →
      (j ≤ i → extractJsonFromText parse text = none) ∧
      (i < j → extractJsonFromText parse text = parse ((text.take (j + 1)).drop i))) := by
  refine ⟨?_, ?_, ?_, ?_⟩
  · intro h
    rw [h]
    rfl
  · intro h
    unfold extractJsonFromText
    split
    · rfl
    · rw [if_pos (Or.inl (jsIndexOf_of_not_mem text '{' h))]
  · intro h
    unfold extractJsonFromText
    split
    · rfl
    · rw [if_pos (Or.inr (Or.inl ?_))]
      unfold jsLastIndexOf
      rw [jsIndexOf_of_not_mem text.reverse '}' (by simpa using h)]
      rfl
  · intro i j hi hj
    have htne : text ≠ [] := by
      intro he
      rw [he] at hi
      simp [isFirstIdx] at hi
    have hf := jsIndexOf_of_isFirstIdx text '{' i hi
    have hl := jsLastIndexOf_of_isLastIdx text '}' j hj
    constructor
    · intro hle
      unfold extractJsonFromText
      rw [if_neg htne, if_pos (Or.inr (Or.inr ?_))]
      rw [hf, hl]
      omega
    · intro hlt
      unfold extractJsonFromText
      rw [if_neg htne, if_neg ?_, hf, hl]
      · unfold jsSlice
        have h1 : ((i : Int)).toNat = i := rfl
        have h2 : ((j : Int) + 1).toNat = j + 1 := by omega
        rw [h1, h2]
      · rw [hf, hl]
        push_neg
        refine ⟨by omega, by omega, by omega⟩

/-- Claim C3, witness: on the text `x{"a":1}y` the first `{` is at index 1,
the last `}` at index 7, and the extraction parses exactly the inclusive
substring. -/
theorem c3_extract_characterization_witness :
    extractJsonFromText jsonParse ("x\x7b\"a\":1\x7dy".toList) =
      jsonParse ((("x\x7b\"a\":1\x7dy".toList).take 8).drop 1) :=
  ((c3_extract_characterization jsonParse _).2.2.2 1 7 (by decide) (by decide)).2
    (by decide)

/-- The successful auto-locate response as the amended claim words it:
`suggestions` is the parsed object's `mapPoints` when that is an array and
the empty list otherwise (including when extraction yielded null); `pose`
is the parsed object's `estimatedPose` when truthy, else `null`; `analysis`
is the `analysis` field when truthy, else the `reasoning` field when
truthy, else the (trimmed) response text; `raw` is the (trimmed) response
text (spec-side definition, to be compared with `autoLocateSuccessBody`). -/
def autoLocateSuccessBodySpec (parsed : Option JsValue) (rawText : JStr) : JsValue :=
  let sugg : JsValue := match parsed with
    | none => .arr .nil
    | some p => match getQ p ("mapPoints".toList) with
      | .arr xs => .arr xs
      | _ => .arr .nil
  let pose : JsValue := match parsed with
    | none => .null
    | some p =>
      if truthy (getQ p ("estimatedPose".toList)) then getQ p ("estimatedPose".toList)
      else .null
  let analysis : JsValue := match parsed with
    | none => .str rawText
    | some p =>
      if truthy (getQ p ("analysis".toList)) then getQ p ("analysis".toList)
      else if truthy (getQ p ("reasoning".toList)) then getQ p ("reasoning".toList)
      else .str rawText
  .obj (.cons ("success".toList) (.bool true)
    (.cons ("suggestions".toList) sugg
      (.cons ("pose".toList) pose
        (.cons ("analysis".toList) analysis
          (.cons ("raw".toList) (.str rawText) .nil)))))

/-- Claim C4, counterexample: for an upstream response `' x'` (leading
space) the endpoint's `raw` field is the trimmed text `'x'`, not the full
raw response text `' x'` as the claim states. -/
theorem c4_cex :
    (autolocateSuccess (.obj (.cons ("response".toList) (.str [' ', 'x']) .nil))).map
      (fun b => getQ b ("raw".toList)) = some (.str ['x']) ∧
    JsValue.str ['x'] ≠ JsValue.str [' ', 'x'] := by
  constructor
  · rfl
  · decide

/-- Claim C4 (amended): on every successful auto-locate request the
response body is assembled, from the trimmed response text, exactly as the
claim describes — `suggestions` is `mapPoints` when an array, else empty
(including when extraction yields null); `pose` is `estimatedPose` when
truthy, else null; `analysis` falls back from `analysis` to `reasoning` to
the text (JS falsy fallback); and `raw` carries the response text trimmed
of leading and trailing whitespace rather than the full raw text. -/
theorem c4_response_assembly (payload resp : JsValue) (s : JStr)
    (hresp : getMem payload ("response".toList) = some resp)
    (hstr : jsOr resp (.str []) = .str s) :
    autolocateSuccess payload =
      some (autoLocateSuccessBodySpec (extractJsonFromText jsonParse (trimJs s)) (trimJs s)) ∧
    (∀ parsed rawText, autoLocateSuccessBody parsed rawText =
      autoLocateSuccessBodySpec parsed rawText) := by
  have harr : ∀ q : JsValue, (if isArrayJs q = true then q else .arr .nil) =
      (match q with | .arr xs => JsValue.arr xs | _ => JsValue.arr JsArr.nil) := by
    intro q
    cases q <;> rfl
  have hbody : ∀ parsed rawText, autoLocateSuccessBody parsed rawText =
      autoLocateSuccessBodySpec parsed rawText := by
    intro parsed rawText
    cases parsed with
    | none => rfl
    | some p =>
      simp only [autoLocateSuccessBody, autoLocateSuccessBodySpec, jsOr, harr]
  refine ⟨?_, hbody⟩
  simp only [autolocateSuccess, hresp, hstr, hbody]

/-- Claim C4, witness: a response text with no surrounding whitespace and
no JSON span assembles the documented body. -/
theorem c4_response_assembly_witness :
    autolocateSuccess (.obj (.cons ("response".toList) (.str ("ok".toList)) .nil)) =
      some (autoLocateSuccessBodySpec
        (extractJsonFromText jsonParse (trimJs ("ok".toList))) (trimJs ("ok".toList))) :=
  (c4_response_assembly (.obj (.cons ("response".toList) (.str ("ok".toList)) .nil))
    (.str ("ok".toList)) ("ok".toList) rfl rfl).1

/-! Helper lemmas about the sanitization pipeline (claims C8 and C9). -/

/-- No two adjacent whitespace characters. -/
def noTwoWs : JStr → Bool
  | [] => true
  | [_] => true
  | c :: d :: t => (!(isWs c && isWs d)) && noTwoWs (d :: t)

/-- `squash` keeps the head of a non-whitespace-headed list. -/
theorem squash_head_of_not_ws (d : Char) (cs : JStr) (h : isWs d = false) :
    ∃ t, squash (d :: cs) = d :: t := by
  cases cs with
  | nil => exact ⟨[], by simp [squash, h]⟩
  | cons e es => exact ⟨squash (e :: es), by simp [squash, h]⟩

/-- Every whitespace character surviving `squash` is a plain space. -/
theorem squash_ws_space (l : JStr) : ∀ c ∈ squash l, isWs c = true → c = ' ' := by
  induction l using squash.induct with
  | case1 => intro c hc; simp [squash] at hc
  | case2 c hw => intro e he hw2; simp [squash, hw] at he; exact he
  | case3 c hw =>
    intro e he hw2
    simp [squash, hw] at he
    subst he
    exact absurd hw2 hw
  | case4 c d cs hw hwd ih =>
    intro e he hw2
    rw [show squash (c :: d :: cs) = squash (d :: cs) by simp [squash, hw, hwd]] at he
    exact ih e he hw2
  | case5 c d cs hw hwd ih =>
    intro e he hw2
    rw [show squash (c :: d :: cs) = ' ' :: squash (d :: cs) by simp [squash, hw, hwd],
      List.mem_cons] at he
    rcases he with he | he
    · exact he
    · exact ih e he hw2
  | case6 c d cs hw ih =>
    intro e he hw2
    rw [show squash (c :: d :: cs) = c :: squash (d :: cs) by simp [squash, hw],
      List.mem_cons] at he
    rcases he with he | he
    · subst he; exact absurd hw2 hw
    · exact ih e he hw2

/-- `noTwoWs` ignores a non-whitespace head. -/
theorem noTwoWs_cons (c : Char) (r : JStr) (hc : isWs c = false) (hr : noTwoWs r = true) :
    noTwoWs (c :: r) = true := by
  cases r with
  | nil => rfl
  | cons d t =>
    simp only [noTwoWs, hc, Bool.false_and, Bool.not_false, Bool.true_and]
    exact hr

/-- `noTwoWs` restricted to the tail. -/
theorem noTwoWs_tail (c : Char) (r : JStr) (h : noTwoWs (c :: r) = true) :
    noTwoWs r = true := by
  cases r with
  | nil => rfl
  | cons d t =>
    simp only [noTwoWs, Bool.and_eq_true] at h
    exact h.2

/-- The head pair of a `noTwoWs` list is not doubly whitespace. -/
theorem noTwoWs_pair (c d : Char) (t : JStr) (h : noTwoWs (c :: d :: t) = true) :
    (!(isWs c && isWs d)) = true := by
  simp only [noTwoWs, Bool.and_eq_true] at h
  exact h.1

/-- `squash` never produces two adjacent whitespace characters. -/
theorem squash_noTwoWs (l : JStr) : noTwoWs (squash l) = true := by
  induction l using squash.induct with
  | case1 => rfl
  | case2 c hw => simp [squash, hw, noTwoWs]
  | case3 c hw => simp [squash, hw, noTwoWs]
  | case4 c d cs hw hwd ih =>
    rw [show squash (c :: d :: cs) = squash (d :: cs) by simp [squash, hw, hwd]]
    exact ih
  | case5 c d cs hw hwd ih =>
    rw [show squash (c :: d :: cs) = ' ' :: squash (d :: cs) by simp [squash, hw, hwd]]
    obtain ⟨t, ht⟩ := squash_head_of_not_ws d cs (by simpa using hwd)
    rw [ht]
    have htail : noTwoWs (d :: t) = true := ht ▸ ih
    cases t with
    | nil => simp [noTwoWs, hwd]
    | cons e es =>
      simp only [noTwoWs, Bool.and_eq_true] at htail ⊢
      refine ⟨?_, htail⟩
      simp [hwd]
  | case6 c d cs hw ih =>
    rw [show squash (c :: d :: cs) = c :: squash (d :: cs) by simp [squash, hw]]
    exact noTwoWs_cons c _ (by simpa using hw) ih

/-- `dropWhile` preserves `noTwoWs`. -/
theorem noTwoWs_dropWhile (p : Char → Bool) (l : JStr) (h : noTwoWs l = true) :
    noTwoWs (l.dropWhile p) = true := by
  induction l with
  | nil => rfl
  | cons c t ih =>
    rw [List.dropWhile_cons]
    by_cases hp : p c = true
    · rw [if_pos hp]
      exact ih (noTwoWs_tail _ _ h)
    · rw [if_neg hp]
      exact h

/-- `trimR` either empties a list or keeps its head. -/
theorem trimR_shape (c : Char) (t : JStr) :
    trimR (c :: t) = [] ∨ ∃ r, trimR (c :: t) = c :: r := by
  unfold trimR
  cases htr : trimR t with
  | nil =>
    by_cases hw : isWs c = true
    · left; simp [hw]
    · right; exact ⟨[], by simp [hw]⟩
  | cons a r => right; exact ⟨a :: r, rfl⟩

/-- `trimR` yields a sublist. -/
theorem trimR_sublist (l : JStr) : List.Sublist (trimR l) l := by
  induction l with
  | nil => exact List.Sublist.refl []
  | cons c t ih =>
    unfold trimR
    cases htr : trimR t with
    | nil =>
      by_cases hw : isWs c = true
      · simp [hw]
      · simp only [hw, if_false]
        exact List.cons_sublist_cons.2 (List.nil_sublist t)
    | cons a r =>
      exact List.cons_sublist_cons.2 (htr ▸ ih)

/-- `trimR` preserves `noTwoWs`. -/
theorem noTwoWs_trimR (l : JStr) (h : noTwoWs l = true) : noTwoWs (trimR l) = true := by
  induction l with
  | nil => rfl
  | cons c t ih =>
    have ht := ih (noTwoWs_tail _ _ h)
    unfold trimR
    cases htr : trimR t with
    | nil =>
      by_cases hw : isWs c = true <;> simp [hw, noTwoWs]
    | cons a r =>
      rw [htr] at ht
      cases t with
      | nil => simp [trimR] at htr
      | cons t0 t1 =>
        have ha : t0 = a := by
          rcases trimR_shape t0 t1 with hsh | ⟨r2, hsh⟩
          · rw [hsh] at htr; cases htr
          · rw [hsh] at htr
            injection htr with h1 h2
        have hpair := noTwoWs_pair c t0 t1 h
        rw [ha] at hpair
        show noTwoWs (c :: a :: r) = true
        simp only [noTwoWs, Bool.and_eq_true]
        exact ⟨hpair, ht⟩

/-- `take` preserves `noTwoWs`. -/
theorem noTwoWs_take (l : JStr) : ∀ n, noTwoWs l = true → noTwoWs (l.take n) = true := by
  induction l with
  | nil => intro n h; simp [noTwoWs, List.take_nil]
  | cons c t ih =>
    intro n h
    cases n with
    | zero => rfl
    | succ m =>
      rw [List.take_succ_cons]
      cases t with
      | nil => cases m <;> simp [noTwoWs]
      | cons d t2 =>
        cases m with
        | zero => simp [noTwoWs]
        | succ k =>
          have htail := ih (k + 1) (noTwoWs_tail _ _ h)
          rw [List.take_succ_cons] at htail
          rw [List.take_succ_cons]
          simp only [noTwoWs, Bool.and_eq_true] at htail ⊢
          exact ⟨noTwoWs_pair c d t2 h, htail⟩

/-- The head surviving `dropWhile` fails the predicate. -/
theorem dropWhile_head_not (p : Char → Bool) (l : JStr) :
    ∀ c, (l.dropWhile p).head? = some c → p c = false := by
  induction l with
  | nil => intro c h; simp at h
  | cons a t ih =>
    intro c h
    rw [List.dropWhile_cons] at h
    by_cases hp : p a = true
    · rw [if_pos hp] at h
      exact ih c h
    · rw [if_neg hp] at h
      simp at h
      rw [← h]
      exact Bool.eq_false_iff.2 hp

/-- `take n` with positive `n` preserves the head. -/
theorem take_head? (l : JStr) (n : Nat) (h : 0 < n) : (l.take n).head? = l.head? := by
  cases l with
  | nil => simp
  | cons c t =>
    cases n with
    | zero => omega
    | succ m => simp [List.take_succ_cons]

/-- A list whose head is not whitespace is unchanged by `trimL`. -/
theorem trimL_fixed (l : JStr) (h : ∀ c, l.head? = some c → isWs c = false) :
    trimL l = l := by
  cases l with
  | nil => rfl
  | cons c t =>
    unfold trimL
    rw [List.dropWhile_cons, if_neg]
    simp [h c rfl]

/-- A list with only single plain spaces as whitespace is unchanged by
`squash`. -/
theorem squash_fixed (l : JStr) (hsp : ∀ c ∈ l, isWs c = true → c = ' ')
    (hn2 : noTwoWs l = true) : squash l = l := by
  induction l using squash.induct with
  | case1 => rfl
  | case2 c hw =>
    have := hsp c (by simp) hw
    simp [squash, hw, this]
  | case3 c hw => simp [squash, hw]
  | case4 c d cs hw hwd ih =>
    exact absurd (noTwoWs_pair c d cs hn2) (by simp [hw, hwd])
  | case5 c d cs hw hwd ih =>
    have hc := hsp c (by simp) hw
    rw [show squash (c :: d :: cs) = ' ' :: squash (d :: cs) by simp [squash, hw, hwd], hc]
    rw [ih (fun e he hwe => hsp e (List.mem_cons_of_mem c he) hwe) (noTwoWs_tail _ _ hn2)]
  | case6 c d cs hw ih =>
    rw [show squash (c :: d :: cs) = c :: squash (d :: cs) by simp [squash, hw]]
    rw [ih (fun e he hwe => hsp e (List.mem_cons_of_mem c he) hwe) (noTwoWs_tail _ _ hn2)]

/-- A list with no CR/LF characters is unchanged by `nlRepl`. -/
theorem nlRepl_fixed (l : JStr) (h : ∀ c ∈ l, isNl c = false) : nlRepl l = l := by
  induction l using nlRepl.induct with
  | case1 => rfl
  | case2 c hw => exact absurd (h c (by simp)) (by simp [hw])
  | case3 c hw => simp [nlRepl, hw]
  | case4 c d cs hw hwd ih => exact absurd (h c (by simp)) (by simp [hw])
  | case5 c d cs hw hwd ih => exact absurd (h c (by simp)) (by simp [hw])
  | case6 c d cs hw ih =>
    rw [show nlRepl (c :: d :: cs) = c :: nlRepl (d :: cs) by simp [nlRepl, hw]]
    rw [ih (fun e he => h e (List.mem_cons_of_mem c he))]

/-- CR and LF are whitespace. -/
theorem isNl_isWs (c : Char) (h : isNl c = true) : isWs c = true := by
  unfold isNl at h
  rcases Bool.or_eq_true_iff.1 h with h1 | h1
  · rw [show c = '\r' by exact_mod_cast of_decide_eq_true h1]; decide
  · rw [show c = '\n' by exact_mod_cast of_decide_eq_true h1]; decide

/-- `trimR` keeps the head of any list it does not empty. -/
theorem trimR_head_some (l : JStr) (c : Char) (h : (trimR l).head? = some c) :
    l.head? = some c := by
  cases l with
  | nil => simp [trimR] at h
  | cons a t =>
    rcases trimR_shape a t with hsh | ⟨r, hsh⟩
    · rw [hsh] at h; simp at h
    · rw [hsh] at h
      simp at h
      simp [h]

/-- The combined properties of `sanitizePromptText` output: every surviving
whitespace character is a single plain space with no whitespace neighbour,
the head is not whitespace, and the length is capped at 160. -/
theorem sanitize_props (v : JsValue) :
    (∀ c ∈ sanitizePromptText v, isWs c = true → c = ' ') ∧
    (∀ c, (sanitizePromptText v).head? = some c → isWs c = false) ∧
    (sanitizePromptText v).length ≤ 160 ∧
    noTwoWs (sanitizePromptText v) = true := by
  have hdef : sanitizePromptText v =
      List.take 160 (trimR (trimL (squash (nlRepl (jsToString (coalesce v (.str []))))))) := rfl
  refine ⟨?_, ?_, ?_, ?_⟩
  · intro c hc hw
    rw [hdef] at hc
    have h1 : c ∈ trimR (trimL (squash (nlRepl (jsToString (coalesce v (.str [])))))) :=
      (List.take_sublist _ _).mem hc
    have h2 : c ∈ trimL (squash (nlRepl (jsToString (coalesce v (.str []))))) :=
      (trimR_sublist _).mem h1
    have h3 : c ∈ squash (nlRepl (jsToString (coalesce v (.str [])))) :=
      (List.dropWhile_sublist _).mem h2
    exact squash_ws_space _ c h3 hw
  · intro c hc
    rw [hdef, take_head? _ 160 (by omega)] at hc
    exact dropWhile_head_not isWs _ c (trimR_head_some _ c hc)
  · rw [hdef]
    exact List.length_take_le 160 _
  · rw [hdef]
    exact noTwoWs_take _ 160 (noTwoWs_trimR _ (noTwoWs_dropWhile isWs _ (squash_noTwoWs _)))

/-- Sanitizing a sanitized text only strips the possible single trailing
space left by truncation. -/
theorem sanitize_again (v : JsValue) :
    sanitizePromptText (.str (sanitizePromptText v)) = trimR (sanitizePromptText v) := by
  obtain ⟨hsp, hhd, hlen, hn2⟩ := sanitize_props v
  have h1 : sanitizePromptText (.str (sanitizePromptText v)) =
      List.take 160 (trimR (trimL (squash (nlRepl (sanitizePromptText v))))) := rfl
  have hnl : nlRepl (sanitizePromptText v) = sanitizePromptText v := by
    refine nlRepl_fixed _ (fun c hc => ?_)
    cases hnlc : isNl c with
    | false => rfl
    | true =>
      exfalso
      have hceq := hsp c hc (isNl_isWs c hnlc)
      rw [hceq] at hnlc
      exact absurd hnlc (by decide)
  have hsq : squash (sanitizePromptText v) = sanitizePromptText v :=
    squash_fixed _ hsp hn2
  have htl : trimL (sanitizePromptText v) = sanitizePromptText v :=
    trimL_fixed _ hhd
  rw [h1, hnl, hsq, htl]
  exact List.take_of_length_le (le_trans ((trimR_sublist _).length_le) hlen)

set_option maxRecDepth 8000 in
/-- Claim C9, counterexample: on the 161-character input of 159 `a`s, a
space and a `b`, the sanitized output ends in a space (truncation at 160
cuts directly after the space), and applying the sanitizer again removes
that space, so the output has trailing whitespace and the function is not
idempotent as claimed. -/
theorem c9_cex :
    (sanitizePromptText (.str (List.replicate 159 'a' ++ [' ', 'b']))).getLast? = some ' ' ∧
    sanitizePromptText (.str (sanitizePromptText
        (.str (List.replicate 159 'a' ++ [' ', 'b'])))) ≠
      sanitizePromptText (.str (List.replicate 159 'a' ++ [' ', 'b'])) := by
  constructor
  · decide
  · decide

/-- Claim C9 (amended): for every input string the sanitizer's output
contains no newline, every whitespace character in it is a single plain
space with no whitespace neighbour, it never starts with whitespace, its
length is at most 160, and re-sanitizing equals the output with its
possible single trailing space (left only by the 160-character truncation)
removed — full idempotence and absence of trailing whitespace fail exactly
in that truncation case. -/
theorem c9_sanitize (s : JStr) :
    ('\n' ∉ sanitizePromptText (.str s)) ∧
    ('\r' ∉ sanitizePromptText (.str s)) ∧
    (∀ c ∈ sanitizePromptText (.str s), isWs c = true → c = ' ') ∧
    (noTwoWs (sanitizePromptText (.str s)) = true) ∧
    (∀ c, (sanitizePromptText (.str s)).head? = some c → isWs c = false) ∧
    (sanitizePromptText (.str s)).length ≤ 160 ∧
    sanitizePromptText (.str (sanitizePromptText (.str s))) =
      trimR (sanitizePromptText (.str s)) := by
  obtain ⟨hsp, hhd, hlen, hn2⟩ := sanitize_props (.str s)
  refine ⟨?_, ?_, hsp, hn2, hhd, hlen, sanitize_again (.str s)⟩
  · intro hmem
    have := hsp '\n' hmem (by decide)
    exact absurd this (by decide)
  · intro hmem
    have := hsp '\r' hmem (by decide)
    exact absurd this (by decide)

/-- Claim C9, witness: on the input `a  b` (double space) the head of the
sanitized output is the non-whitespace `a`. -/
theorem c9_sanitize_witness :
    isWs 'a' = false :=
  (c9_sanitize ("a  b".toList)).2.2.2.2.1 'a' (by decide)

/-- The effective normalized x of a point: `xNorm` when it is a finite
number, else the numeric coercion of `normalizedX`. -/
def effNormX (p : JsValue) : JNum :=
  if isFiniteNum (getQ p ("xNorm".toList)) then jsToNumber (getQ p ("xNorm".toList))
  else jsToNumber (getQ p ("normalizedX".toList))

/-- The effective normalized y of a point. -/
def effNormY (p : JsValue) : JNum :=
  if isFiniteNum (getQ p ("yNorm".toList)) then jsToNumber (getQ p ("yNorm".toList))
  else jsToNumber (getQ p ("normalizedY".toList))

/-- The value whose string form is sanitized into the point's label: the
point's `label` when truthy, else the fallback `P<id or index+1>`. -/
def labelArg (index : Nat) (p : JsValue) : JsValue :=
  jsOr (getQ p ("label".toList))
    (.str ('P' :: jsToString (coalesce (getQ p ("id".toList)) (.num (.finite (index + 1))))))

/-- The coordinate fragment of a point line: each axis is included exactly
when its effective value is a finite number. -/
def coordsText (p : JsValue) : JStr :=
  joinStr (", ".toList)
    ((match effNormX p with
      | .finite i => [("xNorm=".toList) ++ toFixed4 i]
      | _ => []) ++
     (match effNormY p with
      | .finite i => [("yNorm=".toList) ++ toFixed4 i]
      | _ => []))

/-- The optional sanitized-description fragment of a point line. -/
def noteText (p : JsValue) : JStr :=
  if truthy (getQ p ("description".toList)) then
    (", descrizione: ".toList) ++ sanitizePromptText (getQ p ("description".toList))
  else []

/-- The shape of one point line as the claim describes it: a sanitized
label, the coordinates only when finite, and the sanitized description
only when present. -/
def pointLineParts (index : Nat) (p : JsValue) : JStr :=
  ("- ".toList) ++ sanitizePromptText (labelArg index p) ++
    (if coordsText p ≠ [] then (" (".toList) ++ coordsText p ++ [')'] else []) ++
    noteText p

/-- `takeA` is idempotent. -/
theorem takeA_takeA : ∀ (l : JsArr) (n : Nat), (l.takeA n).takeA n = l.takeA n
  | .nil, n => by cases n <;> rfl
  | .cons v t, 0 => rfl
  | .cons v t, m + 1 => by
    show JsArr.cons v ((t.takeA m).takeA m) = JsArr.cons v (t.takeA m)
    rw [takeA_takeA t m]

/-- Claim C8: the prompt incorporates at most the first 12 existing points
(the format only depends on `points.slice(0, 12)`); each incorporated
point's line consists of the sanitized label, the normalized coordinates
exactly when the effective values are finite numbers, and the sanitized
description exactly when one is truthy; and sanitized fragments contain no
newline and are at most 160 characters long. -/
theorem c8_format_points :
    (∀ xs : JsArr, formatExistingPoints (.arr xs) = formatExistingPoints (.arr (xs.takeA 12))) ∧
    (∀ (i : Nat) (p : JsValue), p ≠ JsValue.null → p ≠ JsValue.undefined →
      pointLine i p = some (pointLineParts i p)) ∧
    (∀ v : JsValue, '\n' ∉ sanitizePromptText v ∧ (sanitizePromptText v).length ≤ 160) := by
  refine ⟨?_, ?_, ?_⟩
  · intro xs
    cases xs with
    | nil => rfl
    | cons x t =>
      show (do
          let ls ← pointLinesOpt 0 ((JsArr.cons x t).takeA 12)
          some (pointsHeader ++ '\n' :: joinStr ['\n'] ls)) =
        formatExistingPoints (.arr (JsArr.cons x (t.takeA 11)))
      show (do
          let ls ← pointLinesOpt 0 ((JsArr.cons x t).takeA 12)
          some (pointsHeader ++ '\n' :: joinStr ['\n'] ls)) =
        (do
          let ls ← pointLinesOpt 0 (JsArr.cons x ((t.takeA 11).takeA 11))
          some (pointsHeader ++ '\n' :: joinStr ['\n'] ls))
      rw [takeA_takeA]
      rfl
  · intro i p hn hu
    cases p with
    | null => exact absurd rfl hn
    | undefined => exact absurd rfl hu
    | bool b => rfl
    | num n => rfl
    | str s => rfl
    | arr xs => rfl
    | obj ms => rfl
  · intro v
    obtain ⟨hsp, _, hlen, _⟩ := sanitize_props v
    refine ⟨?_, hlen⟩
    intro hmem
    have := hsp '\n' hmem (by decide)
    exact absurd this (by decide)

/-- Claim C8, witness: a point with a newline-bearing label, a finite
`xNorm` and a description produces exactly the decomposed line. -/
theorem c8_format_points_witness :
    pointLine 0 (.obj (.cons ("label".toList) (.str ("A\nB".toList))
        (.cons ("xNorm".toList) (.num (.finite 1))
          (.cons ("description".toList) (.str ("ok".toList)) .nil)))) =
      some (pointLineParts 0 (.obj (.cons ("label".toList) (.str ("A\nB".toList))
        (.cons ("xNorm".toList) (.num (.finite 1))
          (.cons ("description".toList) (.str ("ok".toList)) .nil))))) :=
  c8_format_points.2.1 0 _ (by decide) (by decide)

/-! Number printing and parsing lemmas (claim C5). -/

/-- The ASCII code and digit-ness of a decimal digit character. -/
theorem digit_char_val (k : Nat) (h : k < 10) :
    (Char.ofNat (48 + k)).toNat = 48 + k ∧ (Char.ofNat (48 + k)).isDigit = true := by
  interval_cases k <;> exact ⟨rfl, rfl⟩

/-- `natDecAux` is fuel-irrelevant once the fuel exceeds the number. -/
theorem natDecAux_congr : ∀ f1 f2 n : Nat, n < f1 → n < f2 →
    natDecAux f1 n = natDecAux f2 n
  | 0, _, n, h1, _ => absurd h1 (Nat.not_lt_zero n)
  | f1 + 1, f2, n, h1, h2 => by
    cases f2 with
    | zero => omega
    | succ g2 =>
      unfold natDecAux
      by_cases h10 : n < 10
      · simp [h10]
      · simp only [h10, if_false]
        have hd : n / 10 < n := Nat.div_lt_self (by omega) (by omega)
        rw [natDecAux_congr f1 g2 (n / 10) (by omega) (by omega)]

/-- Unfolding of `natDec` at a multi-digit number. -/
theorem natDec_unfold (n : Nat) (h : ¬ n < 10) :
    natDec n = natDec (n / 10) ++ [Char.ofNat (48 + n % 10)] := by
  have hd : n / 10 < n := Nat.div_lt_self (by omega) (by omega)
  show natDecAux (n + 1) n = _
  unfold natDecAux
  simp only [h, if_false]
  rw [natDecAux_congr n (n / 10 + 1) (n / 10) (by omega) (by omega)]
  rfl

/-- The decimal form of a number is a non-empty string of digits. -/
theorem natDec_digits (n : Nat) : natDec n ≠ [] ∧ ∀ c ∈ natDec n, c.isDigit = true := by
  induction n using Nat.strong_induction_on with
  | _ n ih =>
    by_cases h10 : n < 10
    · have : natDec n = [Char.ofNat (48 + n)] := by
        show natDecAux (n + 1) n = _
        unfold natDecAux
        simp [h10]
      rw [this]
      refine ⟨by simp, ?_⟩
      intro c hc
      simp at hc
      rw [hc]
      exact (digit_char_val n h10).2
    · rw [natDec_unfold n h10]
      have hd : n / 10 < n := Nat.div_lt_self (by omega) (by omega)
      refine ⟨by simp, ?_⟩
      intro c hc
      rw [List.mem_append] at hc
      rcases hc with hc | hc
      · exact (ih (n / 10) hd).2 c hc
      · simp at hc
        rw [hc]
        exact (digit_char_val (n % 10) (by omega)).2

/-- Folding the decimal digits of `n` onto an accumulator. -/
theorem foldl_natDec (n : Nat) : ∀ a : Nat,
    (natDec n).foldl (fun x c => x * 10 + (c.toNat - 48)) a =
      a * 10 ^ (natDec n).length + n := by
  induction n using Nat.strong_induction_on with
  | _ n ih =>
    intro a
    by_cases h10 : n < 10
    · have hform : natDec n = [Char.ofNat (48 + n)] := by
        show natDecAux (n + 1) n = _
        unfold natDecAux
        simp [h10]
      rw [hform]
      simp [List.foldl, (digit_char_val n h10).1]
    · have hd : n / 10 < n := Nat.div_lt_self (by omega) (by omega)
      rw [natDec_unfold n h10, List.foldl_append, ih (n / 10) hd a]
      simp only [List.foldl, List.length_append, List.length_singleton]
      rw [(digit_char_val (n % 10) (by omega)).1]
      have hpow : 10 ^ ((natDec (n / 10)).length + 1) = 10 ^ (natDec (n / 10)).length * 10 :=
        pow_succ 10 _
      rw [hpow]
      have : (48 + n % 10 - 48) = n % 10 := by omega
      rw [this]
      have hmod : n / 10 * 10 + n % 10 = n := by omega
      ring_nf
      omega

/-- Reading back the decimal digits of `n` yields `n`. -/
theorem digitsToNat_natDec (n : Nat) : digitsToNat (natDec n) = n := by
  unfold digitsToNat
  rw [foldl_natDec n 0]
  simp

/-- The characters allowed to follow a printed number without extending it. -/
def delimOk : JStr → Prop
  | [] => True
  | c :: _ => c.isDigit = false ∧ c ≠ '.' ∧ c ≠ 'e' ∧ c ≠ 'E'

instance (l : JStr) : Decidable (delimOk l) := by
  unfold delimOk
  cases l <;> infer_instance

/-- `takeWhile`/`dropWhile` across a block that satisfies the predicate. -/
theorem span_app (p : Char → Bool) : ∀ ds rest : JStr, (∀ c ∈ ds, p c = true) →
    ((ds ++ rest).takeWhile p = ds ++ rest.takeWhile p ∧
     (ds ++ rest).dropWhile p = rest.dropWhile p)
  | [], rest, _ => ⟨rfl, rfl⟩
  | d :: ds, rest, h => by
    have hd : p d = true := h d (List.mem_cons_self d ds)
    have ih := span_app p ds rest (fun c hc => h c (List.mem_cons_of_mem d hc))
    constructor
    · rw [List.cons_append, List.takeWhile_cons, if_pos hd, ih.1]
      rfl
    · rw [List.cons_append, List.dropWhile_cons, if_pos hd, ih.2]

/-- Parsing the printed decimal digits of `n` returns `n` and the rest. -/
theorem parseNumFrom_natDec (n : Nat) (rest : JStr) (hrest : delimOk rest) :
    parseNumFrom (natDec n ++ rest) = some (n, rest) := by
  obtain ⟨hne, hdig⟩ := natDec_digits n
  have hrest2 : rest.takeWhile (·.isDigit) = [] ∧ rest.dropWhile (·.isDigit) = rest := by
    cases rest with
    | nil => exact ⟨rfl, rfl⟩
    | cons c t =>
      obtain ⟨hcd, _⟩ := hrest
      constructor
      · rw [List.takeWhile_cons, if_neg (by simp [hcd])]
      · rw [List.dropWhile_cons, if_neg (by simp [hcd])]
  have hspan := span_app (·.isDigit) (natDec n) rest (by simpa using hdig)
  unfold parseNumFrom
  rw [List.span_eq_take_drop]
  simp only [hspan.1, hspan.2, hrest2.1, hrest2.2, List.append_nil]
  rw [if_neg (by simpa using hne)]
  cases rest with
  | nil => simp [digitsToNat_natDec]
  | cons c t =>
    obtain ⟨hcd, hdot, he, hE⟩ := hrest
    show (if c = '.' ∨ c = 'e' ∨ c = 'E' then none
      else some (digitsToNat (natDec n), c :: t)) = some (n, c :: t)
    rw [if_neg (by simp [hdot, he, hE])]
    simp [digitsToNat_natDec]

/-! String escaping round-trip (claim C5). -/


theorem hexDig_val (k : Nat) (h : k < 16) : hexVal (hexDig k) = some k := by
  interval_cases k <;> rfl

theorem parseStrBody_escStr : ∀ s rest : JStr,
    parseStrBody (escStr s ++ '"' :: rest) = some (s, rest)
  | [], rest => by
    show parseStrBody ('"' :: rest) = some ([], rest)
    rw [parseStrBody.eq_def]
    rfl
  | c :: s2, rest => by
    have ih := parseStrBody_escStr s2 rest
    show parseStrBody ((escChar c ++ escStr s2) ++ '"' :: rest) = some (c :: s2, rest)
    rw [List.append_assoc]
    by_cases h1 : c = '"'
    · subst h1; simp [escChar, parseStrBody, unescChar, ih]
    · by_cases h2 : c = '\\'
      · subst h2; simp [escChar, parseStrBody, unescChar, ih]
      · by_cases h3 : c = '\n'
        · subst h3; simp [escChar, parseStrBody, unescChar, ih]
        · by_cases h4 : c = '\r'
          · subst h4; simp [escChar, parseStrBody, unescChar, ih]
          · by_cases h5 : c = '\t'
            · subst h5; simp [escChar, parseStrBody, unescChar, ih]
            · by_cases h6 : c = Char.ofNat 8
              · subst h6; simp [escChar, parseStrBody, unescChar, ih]
              · by_cases h7 : c = Char.ofNat 12
                · subst h7; simp [escChar, parseStrBody, unescChar, ih]
                · by_cases h8 : c.toNat < 32
                  · rw [show escChar c = ['\\', 'u', '0', '0',
                      hexDig (c.toNat / 16), hexDig (c.toNat % 16)] by
                        simp [escChar, h1, h2, h3, h4, h5, h6, h7, h8]]
                    show parseStrBody ('\\' :: 'u' :: '0' :: '0' ::
                      hexDig (c.toNat / 16) :: hexDig (c.toNat % 16) ::
                      (escStr s2 ++ '"' :: rest)) = some (c :: s2, rest)
                    simp [parseStrBody, show hexVal '0' = some 0 from rfl,
                      hexDig_val (c.toNat / 16) (by omega), hexDig_val (c.toNat % 16) (by omega),
                      ih]
                    rw [show c.toNat / 16 * 16 + c.toNat % 16 = c.toNat from by omega,
                      Char.ofNat_toNat]
                  · rw [show escChar c = [c] by
                      simp [escChar, h1, h2, h3, h4, h5, h6, h7, h8]]
                    show parseStrBody (c :: (escStr s2 ++ '"' :: rest)) = some (c :: s2, rest)
                    unfold parseStrBody
                    rw [if_neg h1, if_neg h2, ih]

/-! Whitespace-skipping and token-head lemmas (claim C5). -/

/-- `skipWs` stops at a non-whitespace head. -/
theorem skipWs_cons_false (c : Char) (l : JStr) (h : jws c = false) :
    skipWs (c :: l) = c :: l := by
  unfold skipWs
  rw [List.dropWhile_cons, if_neg (by simp [h])]

/-- `skipWs` passes a whitespace head. -/
theorem skipWs_cons_true (c : Char) (l : JStr) (h : jws c = true) :
    skipWs (c :: l) = skipWs l := by
  unfold skipWs
  rw [List.dropWhile_cons, if_pos (by simp [h])]

/-- `skipWs` passes any run of spaces. -/
theorem skipWs_replicate (m : Nat) (l : JStr) :
    skipWs (List.replicate m ' ' ++ l) = skipWs l := by
  induction m with
  | zero => rfl
  | succ k ih =>
    rw [List.replicate_succ, List.cons_append, skipWs_cons_true ' ' _ (by decide), ih]

/-- `skipWs` passes an indentation block. -/
theorem skipWs_indent (k : Nat) (l : JStr) : skipWs (indentChars k ++ l) = skipWs l :=
  skipWs_replicate (2 * k) l

/-- `skipWs` is idempotent. -/
theorem skipWs_skipWs (l : JStr) : skipWs (skipWs l) = skipWs l := by
  induction l with
  | nil => rfl
  | cons c t ih =>
    by_cases h : jws c = true
    · rw [skipWs_cons_true c t h, ih]
    · rw [skipWs_cons_false c t (by simpa using h), skipWs_cons_false c t (by simpa using h)]

/-- `parseStep` in value mode only sees the whitespace-skipped input. -/
theorem parseStep_val_skipWs (fuel : Nat) (l l2 : JStr) (h : skipWs l = skipWs l2) :
    parseStep (fuel + 1) .val l = parseStep (fuel + 1) .val l2 := by
  rw [parseStep.eq_def]
  conv_rhs => rw [parseStep.eq_def]
  dsimp only
  rw [h]

/-- A character with an ASCII decimal-digit code is neither JSON whitespace
nor a closing token. -/
theorem code_not_special (c : Char) (h48 : 48 ≤ c.toNat) (h57 : c.toNat ≤ 57) :
    jws c = false ∧ c ≠ ']' ∧ c ≠ '}' := by
  have hne : ∀ d : Char, c = d → c.toNat = d.toNat := fun d h => by rw [h]
  refine ⟨?_, ?_, ?_⟩
  · have h1 : ¬ c = ' ' := fun h => by
      have h2 := hne _ h; rw [show (' ' : Char).toNat = 32 from rfl] at h2; omega
    have h2 : ¬ c = '\t' := fun h => by
      have h2 := hne _ h; rw [show ('\t' : Char).toNat = 9 from rfl] at h2; omega
    have h3 : ¬ c = '\n' := fun h => by
      have h2 := hne _ h; rw [show ('\n' : Char).toNat = 10 from rfl] at h2; omega
    have h4 : ¬ c = '\r' := fun h => by
      have h2 := hne _ h; rw [show ('\r' : Char).toNat = 13 from rfl] at h2; omega
    simp [jws, h1, h2, h3, h4]
  · intro h
    have h2 := hne _ h; rw [show (']' : Char).toNat = 93 from rfl] at h2; omega
  · intro h
    have h2 := hne _ h; rw [show ('}' : Char).toNat = 125 from rfl] at h2; omega

/-- The ASCII code window of the characters of a printed natural number. -/
theorem natDec_codes (n : Nat) : ∀ c ∈ natDec n, 48 ≤ c.toNat ∧ c.toNat ≤ 57 := by
  induction n using Nat.strong_induction_on with
  | _ n ih =>
    by_cases h10 : n < 10
    · have hform : natDec n = [Char.ofNat (48 + n)] := by
        show natDecAux (n + 1) n = _
        unfold natDecAux
        simp [h10]
      rw [hform]
      intro c hc
      simp at hc
      rw [hc, (digit_char_val n h10).1]
      omega
    · rw [natDec_unfold n h10]
      intro c hc
      rw [List.mem_append] at hc
      rcases hc with hc | hc
      · exact ih (n / 10) (Nat.div_lt_self (by omega) (by omega)) c hc
      · simp at hc
        rw [hc, (digit_char_val (n % 10) (by omega)).1]
        omega

/-- Every printed JSON value starts with a non-whitespace character that is
not a closing bracket. -/
theorem strVal_head (ind : Nat) (v : JsValue) :
    ∃ c t, strVal ind v = c :: t ∧ jws c = false ∧ c ≠ ']' ∧ c ≠ '}' := by
  cases v with
  | null => refine ⟨'n', _, rfl, ?_, ?_, ?_⟩ <;> decide
  | undefined => refine ⟨'n', _, rfl, ?_, ?_, ?_⟩ <;> decide
  | bool b =>
    cases b with
    | true => refine ⟨'t', _, rfl, ?_, ?_, ?_⟩ <;> decide
    | false => refine ⟨'f', _, rfl, ?_, ?_, ?_⟩ <;> decide
  | num n =>
    cases n with
    | finite i =>
      show ∃ c t, intDec i = c :: t ∧ _
      unfold intDec
      by_cases hneg : i < 0
      · rw [if_pos hneg]
        refine ⟨'-', _, rfl, ?_, ?_, ?_⟩ <;> decide
      · rw [if_neg hneg]
        obtain ⟨hne, _⟩ := natDec_digits i.natAbs
        obtain ⟨c, t, hct⟩ := List.exists_cons_of_ne_nil hne
        have hcode := natDec_codes i.natAbs c (by rw [hct]; exact List.mem_cons_self c t)
        obtain ⟨hj, hr, hb⟩ := code_not_special c hcode.1 hcode.2
        exact ⟨c, t, hct, hj, hr, hb⟩
    | nan => refine ⟨'n', _, rfl, ?_, ?_, ?_⟩ <;> decide
    | inf => refine ⟨'n', _, rfl, ?_, ?_, ?_⟩ <;> decide
    | neginf => refine ⟨'n', _, rfl, ?_, ?_, ?_⟩ <;> decide
  | str s => refine ⟨'"', _, rfl, ?_, ?_, ?_⟩ <;> decide
  | arr xs =>
    by_cases h : itemLines (ind + 1) xs = []
    · exact ⟨'[', [']'], by simp [strVal, h], by decide, by decide, by decide⟩
    · exact ⟨'[', joinPretty (ind + 1) (itemLines (ind + 1) xs) ++
        '\n' :: (indentChars ind ++ [']']),
        by simp [strVal, h], by decide, by decide, by decide⟩
  | obj ms =>
    by_cases h : memberLines (ind + 1) ms = []
    · exact ⟨'{', ['}'], by simp [strVal, h], by decide, by decide, by decide⟩
    · exact ⟨'{', joinPretty (ind + 1) (memberLines (ind + 1) ms) ++
        '\n' :: (indentChars ind ++ ['}']),
        by simp [strVal, h], by decide, by decide, by decide⟩

/-! Parser fuel budgets and layout decompositions (claim C5). -/

mutual
/-- Fuel budget sufficient for `parseStep` to read back a printed value. -/
def bdg : JsValue → Nat
  | .arr xs => 3 + bdgItems xs
  | .obj ms => 3 + bdgMembers ms
  | _ => 1

/-- Budget for the remaining elements of an array. -/
def bdgItems : JsArr → Nat
  | .nil => 0
  | .cons v t => bdg v + 1 + bdgItems t

/-- Budget for the remaining members of an object. -/
def bdgMembers : JsObj → Nat
  | .nil => 0
  | .cons _ v t => bdg v + 1 + bdgMembers t
end

/-- The printed text that follows a just-parsed array element: the
remaining element lines, the closing newline, indent and bracket, and the
ambient rest. -/
def arrTail (ind : Nat) (xs : JsArr) (rest : JStr) : JStr :=
  (match xs with
   | .nil => []
   | .cons y t => ',' :: joinPretty (ind + 1) (itemLines (ind + 1) (JsArr.cons y t))) ++
  '\n' :: (indentChars ind ++ ']' :: rest)

/-- The printed text that follows a just-parsed object member. -/
def objTail (ind : Nat) (ms : JsObj) (rest : JStr) : JStr :=
  (match ms with
   | .nil => []
   | .cons k v t => ',' :: joinPretty (ind + 1) (memberLines (ind + 1) (JsObj.cons k v t))) ++
  '\n' :: (indentChars ind ++ '}' :: rest)

/-- Appending nothing to a JS array. -/
theorem appA_nil : ∀ a : JsArr, a.appA .nil = a
  | .nil => rfl
  | .cons x t => by
    show JsArr.cons x (t.appA .nil) = JsArr.cons x t
    rw [appA_nil t]

/-- `snocA` followed by `appA` regroups. -/
theorem appA_snocA : ∀ (a : JsArr) (v : JsValue) (t : JsArr),
    (a.snocA v).appA t = a.appA (.cons v t)
  | .nil, v, t => rfl
  | .cons x a2, v, t => by
    show JsArr.cons x ((a2.snocA v).appA t) = JsArr.cons x (a2.appA (.cons v t))
    rw [appA_snocA a2 v t]

/-- Appending nothing to a JS object. -/
theorem appO_nil : ∀ a : JsObj, a.appO .nil = a
  | .nil => rfl
  | .cons k v t => by
    show JsObj.cons k v (t.appO .nil) = JsObj.cons k v t
    rw [appO_nil t]

/-- `snocO` followed by `appO` regroups. -/
theorem appO_snocO : ∀ (a : JsObj) (k : JStr) (v : JsValue) (t : JsObj),
    (a.snocO k v).appO t = a.appO (.cons k v t)
  | .nil, k, v, t => rfl
  | .cons k2 v2 a2, k, v, t => by
    show JsObj.cons k2 v2 ((a2.snocO k v).appO t) = JsObj.cons k2 v2 (a2.appO (.cons k v t))
    rw [appO_snocO a2 k v t]

/-- The printed form of a non-empty array, decomposed into the first
element and its tail. -/
theorem strVal_arr_cons (ind : Nat) (x : JsValue) (t : JsArr) (rest : JStr) :
    strVal ind (.arr (.cons x t)) ++ rest =
      '[' :: ('\n' :: (indentChars (ind + 1) ++ (strVal (ind + 1) x ++ arrTail ind t rest))) := by
  cases t with
  | nil =>
    show ('[' :: (joinPretty (ind + 1) [strVal (ind + 1) x] ++
      '\n' :: (indentChars ind ++ [']']))) ++ rest = _
    simp [joinPretty, arrTail, List.append_assoc]
  | cons y t2 =>
    show ('[' :: (joinPretty (ind + 1)
        (strVal (ind + 1) x :: itemLines (ind + 1) (JsArr.cons y t2)) ++
      '\n' :: (indentChars ind ++ [']']))) ++ rest = _
    show ('[' :: (('\n' :: (indentChars (ind + 1) ++ strVal (ind + 1) x ++
        ',' :: joinPretty (ind + 1) (itemLines (ind + 1) (JsArr.cons y t2)))) ++
      '\n' :: (indentChars ind ++ [']']))) ++ rest = _
    simp [arrTail, List.append_assoc]

/-- The element chunk read by the array loop after a comma. -/
theorem arrTail_cons (ind : Nat) (y : JsValue) (t : JsArr) (rest : JStr) :
    arrTail ind (.cons y t) rest =
      ',' :: ('\n' :: (indentChars (ind + 1) ++ (strVal (ind + 1) y ++ arrTail ind t rest))) := by
  cases t with
  | nil =>
    show (',' :: joinPretty (ind + 1) [strVal (ind + 1) y]) ++
      '\n' :: (indentChars ind ++ ']' :: rest) = _
    simp [joinPretty, arrTail, List.append_assoc]
  | cons z t2 =>
    show (',' :: joinPretty (ind + 1)
        (strVal (ind + 1) y :: itemLines (ind + 1) (JsArr.cons z t2))) ++
      '\n' :: (indentChars ind ++ ']' :: rest) = _
    show (',' :: ('\n' :: (indentChars (ind + 1) ++ strVal (ind + 1) y ++
        ',' :: joinPretty (ind + 1) (itemLines (ind + 1) (JsArr.cons z t2))))) ++
      '\n' :: (indentChars ind ++ ']' :: rest) = _
    simp [arrTail, List.append_assoc]

/-- `repOk` values are never `undefined`. -/
theorem repOk_ne_undefined (v : JsValue) (h : repOk v = true) : v ≠ .undefined := by
  intro he
  rw [he] at h
  simp [repOk] at h

/-- A member with a defined value is rendered. -/
theorem memberLines_cons_ne (ind : Nat) (k : JStr) (v : JsValue) (t : JsObj)
    (hv : v ≠ .undefined) :
    memberLines ind (.cons k v t) =
      ('"' :: (escStr k ++ '"' :: ':' :: ' ' :: strVal ind v)) :: memberLines ind t := by
  simp [memberLines, hv]

/-- The printed form of a non-empty all-defined object, decomposed into the
first member and its tail. -/
theorem strVal_obj_cons (ind : Nat) (k : JStr) (v : JsValue) (t : JsObj) (rest : JStr)
    (hv : v ≠ .undefined) (hrep : repOkObj t = true) :
    strVal ind (.obj (.cons k v t)) ++ rest =
      '{' :: ('\n' :: (indentChars (ind + 1) ++ ('"' :: (escStr k ++ '"' :: ':' :: ' ' ::
        (strVal (ind + 1) v ++ objTail ind t rest))))) := by
  have hml := memberLines_cons_ne (ind + 1) k v t hv
  cases t with
  | nil =>
    rw [show strVal ind (.obj (.cons k v .nil)) =
      '{' :: (joinPretty (ind + 1) (memberLines (ind + 1) (JsObj.cons k v .nil)) ++
        '\n' :: (indentChars ind ++ ['}'])) by simp [strVal, hml]]
    rw [hml]
    show ('{' :: (joinPretty (ind + 1) [('"' :: (escStr k ++ '"' :: ':' :: ' ' ::
      strVal (ind + 1) v))] ++ '\n' :: (indentChars ind ++ ['}']))) ++ rest = _
    simp [joinPretty, objTail, List.append_assoc]
  | cons k2 v2 t2 =>
    have hv2 : v2 ≠ .undefined := by
      refine repOk_ne_undefined v2 ?_
      simp [repOkObj, Bool.and_eq_true] at hrep
      exact hrep.1
    have hml2 := memberLines_cons_ne (ind + 1) k2 v2 t2 hv2
    rw [show strVal ind (.obj (.cons k v (.cons k2 v2 t2))) =
      '{' :: (joinPretty (ind + 1) (memberLines (ind + 1) (JsObj.cons k v (.cons k2 v2 t2))) ++
        '\n' :: (indentChars ind ++ ['}'])) by
        rw [strVal]
        simp only [hml, hml2]
        simp]
    rw [hml, hml2]
    show ('{' :: (('\n' :: (indentChars (ind + 1) ++ ('"' :: (escStr k ++ '"' :: ':' :: ' ' ::
        strVal (ind + 1) v)) ++
        ',' :: joinPretty (ind + 1) (('"' :: (escStr k2 ++ '"' :: ':' :: ' ' ::
          strVal (ind + 1) v2)) :: memberLines (ind + 1) t2))) ++
      '\n' :: (indentChars ind ++ ['}']))) ++ rest = _
    rw [objTail]
    simp only [hml2]
    simp [List.append_assoc]

/-- The member chunk read by the object loop after a comma. -/
theorem objTail_cons (ind : Nat) (k : JStr) (v : JsValue) (t : JsObj) (rest : JStr)
    (hv : v ≠ .undefined) (hrep : repOkObj t = true) :
    objTail ind (.cons k v t) rest =
      ',' :: ('\n' :: (indentChars (ind + 1) ++ ('"' :: (escStr k ++ '"' :: ':' :: ' ' ::
        (strVal (ind + 1) v ++ objTail ind t rest))))) := by
  have hml := memberLines_cons_ne (ind + 1) k v t hv
  cases t with
  | nil =>
    show (',' :: joinPretty (ind + 1) (memberLines (ind + 1) (JsObj.cons k v .nil))) ++
      '\n' :: (indentChars ind ++ '}' :: rest) = _
    rw [hml]
    show (',' :: joinPretty (ind + 1) [('"' :: (escStr k ++ '"' :: ':' :: ' ' ::
      strVal (ind + 1) v))]) ++ '\n' :: (indentChars ind ++ '}' :: rest) = _
    simp [joinPretty, objTail, List.append_assoc]
  | cons k2 v2 t2 =>
    have hv2 : v2 ≠ .undefined := by
      refine repOk_ne_undefined v2 ?_
      simp [repOkObj, Bool.and_eq_true] at hrep
      exact hrep.1
    have hml2 := memberLines_cons_ne (ind + 1) k2 v2 t2 hv2
    show (',' :: joinPretty (ind + 1)
        (memberLines (ind + 1) (JsObj.cons k v (.cons k2 v2 t2)))) ++
      '\n' :: (indentChars ind ++ '}' :: rest) = _
    rw [hml, hml2]
    show (',' :: ('\n' :: (indentChars (ind + 1) ++ ('"' :: (escStr k ++ '"' :: ':' :: ' ' ::
        strVal (ind + 1) v)) ++
        ',' :: joinPretty (ind + 1) (('"' :: (escStr k2 ++ '"' :: ':' :: ' ' ::
          strVal (ind + 1) v2)) :: memberLines (ind + 1) t2)))) ++
      '\n' :: (indentChars ind ++ '}' :: rest) = _
    rw [objTail]
    simp only [hml2]
    simp [List.append_assoc]

/-- The array tail always starts with a number delimiter. -/
theorem arrTail_delimOk (ind : Nat) (xs : JsArr) (rest : JStr) : delimOk (arrTail ind xs rest) := by
  cases xs with
  | nil => exact ⟨by decide, by decide, by decide, by decide⟩
  | cons y t => exact ⟨by decide, by decide, by decide, by decide⟩

/-- The object tail always starts with a number delimiter. -/
theorem objTail_delimOk (ind : Nat) (ms : JsObj) (rest : JStr) : delimOk (objTail ind ms rest) := by
  cases ms with
  | nil => exact ⟨by decide, by decide, by decide, by decide⟩
  | cons k v t => exact ⟨by decide, by decide, by decide, by decide⟩

/-- Parsing reads back exactly what `JSON.stringify(·, null, 2)` printed:
the value clause, plus the loop clauses for array elements and object
members. -/
theorem parseStep_roundTrip : ∀ N : Nat,
    (∀ v ind rest, repOk v = true → delimOk rest → bdg v ≤ N →
      parseStep N .val (strVal ind v ++ rest) = some (v, rest)) ∧
    (∀ xs ind rest acc, repOkArr xs = true → delimOk rest → 1 + bdgItems xs ≤ N →
      parseStep N (.arrRest acc) (arrTail ind xs rest) = some (.arr (acc.appA xs), rest)) ∧
    (∀ ms ind rest acc, repOkObj ms = true → delimOk rest → 1 + bdgMembers ms ≤ N →
      parseStep N (.objRest acc) (objTail ind ms rest) = some (.obj (acc.appO ms), rest)) := by
  intro N
  induction N using Nat.strong_induction_on with
  | _ N ih =>
    refine ⟨?_, ?_, ?_⟩
    · intro v ind rest hrep hdel hbdg
      cases v with
      | undefined => simp [repOk] at hrep
      | null =>
        have hb1 : 1 ≤ N := le_trans (by simp [bdg]) hbdg
        obtain ⟨M, rfl⟩ : ∃ M, N = M + 1 := ⟨N - 1, by omega⟩
        show parseStep (M + 1) .val ('n' :: 'u' :: 'l' :: 'l' :: rest) = some (.null, rest)
        rw [parseStep.eq_def]
        dsimp only
        rw [skipWs_cons_false _ _ (by decide)]
        simp
      | bool b =>
        have hb1 : 1 ≤ N := le_trans (by simp [bdg]) hbdg
        obtain ⟨M, rfl⟩ : ∃ M, N = M + 1 := ⟨N - 1, by omega⟩
        cases b with
        | true =>
          show parseStep (M + 1) .val ('t' :: 'r' :: 'u' :: 'e' :: rest) =
            some (.bool true, rest)
          rw [parseStep.eq_def]
          dsimp only
          rw [skipWs_cons_false _ _ (by decide)]
          simp
        | false =>
          show parseStep (M + 1) .val ('f' :: 'a' :: 'l' :: 's' :: 'e' :: rest) =
            some (.bool false, rest)
          rw [parseStep.eq_def]
          dsimp only
          rw [skipWs_cons_false _ _ (by decide)]
          simp
      | str s =>
        have hb1 : 1 ≤ N := le_trans (by simp [bdg]) hbdg
        obtain ⟨M, rfl⟩ : ∃ M, N = M + 1 := ⟨N - 1, by omega⟩
        show parseStep (M + 1) .val ('"' :: ((escStr s ++ ['"']) ++ rest)) =
          some (.str s, rest)
        rw [parseStep.eq_def]
        dsimp only
        rw [skipWs_cons_false _ _ (by decide)]
        rw [show (escStr s ++ ['"']) ++ rest = escStr s ++ '"' :: rest by simp]
        simp [parseStrBody_escStr s rest]
      | num n =>
        cases n with
        | nan => simp [repOk] at hrep
        | inf => simp [repOk] at hrep
        | neginf => simp [repOk] at hrep
        | finite i =>
          have hb1 : 1 ≤ N := le_trans (by simp [bdg]) hbdg
          obtain ⟨M, rfl⟩ : ∃ M, N = M + 1 := ⟨N - 1, by omega⟩
          show parseStep (M + 1) .val (intDec i ++ rest) = some (.num (.finite i), rest)
          by_cases hneg : i < 0
          · rw [show intDec i = '-' :: natDec i.natAbs by simp [intDec, hneg]]
            rw [show ('-' :: natDec i.natAbs) ++ rest =
              '-' :: (natDec i.natAbs ++ rest) from rfl]
            rw [parseStep.eq_def]
            dsimp only
            rw [skipWs_cons_false _ _ (by decide)]
            dsimp only
            rw [if_neg (by decide : ¬(('-').isDigit = true)),
              if_pos (rfl : ('-' : Char) = '-')]
            rw [parseNumFrom_natDec i.natAbs rest hdel]
            dsimp only
            rw [Int.ofNat_natAbs_of_nonpos (by omega), neg_neg]
          · obtain ⟨hne, hdig⟩ := natDec_digits i.natAbs
            obtain ⟨c, t, hct⟩ := List.exists_cons_of_ne_nil hne
            have hmem : c ∈ natDec i.natAbs := hct ▸ List.mem_cons_self c t
            have hcd : c.isDigit = true := hdig c hmem
            have hcode := natDec_codes i.natAbs c hmem
            rw [show intDec i = natDec i.natAbs by simp [intDec, hneg], hct]
            rw [show (c :: t) ++ rest = c :: (t ++ rest) from rfl]
            rw [parseStep.eq_def]
            dsimp only
            rw [skipWs_cons_false _ _ (code_not_special c hcode.1 hcode.2).1]
            dsimp only
            rw [if_pos hcd]
            rw [show c :: (t ++ rest) = natDec i.natAbs ++ rest by rw [hct]; rfl]
            rw [parseNumFrom_natDec i.natAbs rest hdel]
            dsimp only
            rw [Int.natAbs_of_nonneg (by omega)]
      | arr xs =>
        cases xs with
        | nil =>
          have hb3 : 3 ≤ N := le_trans (by simp [bdg, bdgItems]) hbdg
          obtain ⟨M2, rfl⟩ : ∃ M2, N = M2 + 2 := ⟨N - 2, by omega⟩
          show parseStep (M2 + 2) .val ('[' :: ']' :: rest) = some (.arr .nil, rest)
          rw [parseStep.eq_def]
          dsimp only
          rw [skipWs_cons_false _ _ (by decide)]
          dsimp only
          rw [if_neg (by decide), if_neg (by decide), if_neg (by decide),
            if_pos (rfl : ('[' : Char) = '[')]
          rw [parseStep.eq_def]
          dsimp only
          rw [skipWs_cons_false _ _ (by decide)]
          dsimp only
          rw [if_pos (rfl : (']' : Char) = ']')]
        | cons x t =>
          have hrep2 : repOk x = true ∧ repOkArr t = true := by
            simp [repOk, repOkArr, Bool.and_eq_true] at hrep
            exact hrep
          have hb : 3 + (bdg x + 1 + bdgItems t) ≤ N := by
            simpa [bdg, bdgItems] using hbdg
          obtain ⟨M2, rfl⟩ : ∃ M2, N = M2 + 2 := ⟨N - 2, by omega⟩
          have hbdg2 : bdg x ≤ M2 ∧ 1 + bdgItems t ≤ M2 := by omega
          have ihM2 := ih M2 (by omega)
          rw [strVal_arr_cons]
          rw [parseStep.eq_def]
          dsimp only
          rw [skipWs_cons_false _ _ (by decide)]
          dsimp only
          rw [if_neg (by decide), if_neg (by decide), if_neg (by decide),
            if_pos (rfl : ('[' : Char) = '[')]
          rw [parseStep.eq_def]
          dsimp only
          rw [skipWs_cons_true _ _ (by decide), skipWs_indent]
          obtain ⟨c, ct, hct, hjws, hrb, hbb⟩ := strVal_head (ind + 1) x
          rw [hct, show (c :: ct) ++ arrTail ind t rest =
            c :: (ct ++ arrTail ind t rest) from rfl, skipWs_cons_false _ _ hjws]
          dsimp only
          rw [if_neg hrb]
          rw [show c :: (ct ++ arrTail ind t rest) =
            strVal (ind + 1) x ++ arrTail ind t rest by rw [hct]; rfl]
          rw [ihM2.1 x (ind + 1) (arrTail ind t rest) hrep2.1
            (arrTail_delimOk _ _ _) hbdg2.1]
          dsimp only
          rw [ihM2.2.1 t ind rest (.cons x .nil) hrep2.2 hdel hbdg2.2]
          rfl
      | obj ms =>
        cases ms with
        | nil =>
          have hb3 : 3 ≤ N := le_trans (by simp [bdg, bdgMembers]) hbdg
          obtain ⟨M2, rfl⟩ : ∃ M2, N = M2 + 2 := ⟨N - 2, by omega⟩
          show parseStep (M2 + 2) .val ('{' :: '}' :: rest) = some (.obj .nil, rest)
          rw [parseStep.eq_def]
          dsimp only
          rw [skipWs_cons_false _ _ (by decide)]
          dsimp only
          rw [if_neg (by decide), if_neg (by decide), if_neg (by decide),
            if_neg (by decide), if_pos (rfl : ('{' : Char) = '{')]
          rw [parseStep.eq_def]
          dsimp only
          rw [skipWs_cons_false _ _ (by decide)]
          dsimp only
          rw [if_pos (rfl : ('}' : Char) = '}')]
        | cons k v t =>
          have hrep2 : repOk v = true ∧ repOkObj t = true := by
            simp [repOk, repOkObj, Bool.and_eq_true] at hrep
            exact hrep
          have hb : 3 + (bdg v + 1 + bdgMembers t) ≤ N := by
            simpa [bdg, bdgMembers] using hbdg
          obtain ⟨M2, rfl⟩ : ∃ M2, N = M2 + 2 := ⟨N - 2, by omega⟩
          have hbdg2 : bdg v ≤ M2 ∧ 1 + bdgMembers t ≤ M2 := by omega
          have ihM2 := ih M2 (by omega)
          have hbv : 1 ≤ bdg v := by cases v <;> simp [bdg] <;> omega
          obtain ⟨M3, hM3⟩ : ∃ M3, M2 = M3 + 1 := ⟨M2 - 1, by omega⟩
          rw [strVal_obj_cons ind k v t rest (repOk_ne_undefined v hrep2.1) hrep2.2]
          rw [parseStep.eq_def]
          dsimp only
          rw [skipWs_cons_false _ _ (by decide)]
          dsimp only
          rw [if_neg (by decide), if_neg (by decide), if_neg (by decide),
            if_neg (by decide), if_pos (rfl : ('{' : Char) = '{')]
          rw [parseStep.eq_def]
          dsimp only
          rw [skipWs_cons_true _ _ (by decide), skipWs_indent,
            skipWs_cons_false _ _ (by decide)]
          dsimp only
          rw [if_neg (by decide : ¬(('"' : Char) = '}')), if_pos (rfl : ('"' : Char) = '"')]
          rw [show escStr k ++ '"' :: ':' :: ' ' :: (strVal (ind + 1) v ++ objTail ind t rest)
            = escStr k ++ '"' :: (':' :: ' ' :: (strVal (ind + 1) v ++ objTail ind t rest))
            from rfl]
          rw [parseStrBody_escStr k _]
          dsimp only
          rw [skipWs_cons_false _ _ (by decide)]
          simp only
          rw [hM3]
          rw [parseStep_val_skipWs M3 _ (strVal (ind + 1) v ++ objTail ind t rest) (by
            rw [skipWs_cons_true _ _ (by decide)])]
          rw [← hM3]
          rw [ihM2.1 v (ind + 1) (objTail ind t rest) hrep2.1 (objTail_delimOk _ _ _) hbdg2.1]
          dsimp only
          rw [ihM2.2.2 t ind rest (.cons k v .nil) hrep2.2 hdel hbdg2.2]
          rfl
    · intro xs ind rest acc hrep hdel hbdg
      obtain ⟨M, rfl⟩ : ∃ M, N = M + 1 := ⟨N - 1, by omega⟩
      cases xs with
      | nil =>
        show parseStep (M + 1) (.arrRest acc)
          ('\n' :: (indentChars ind ++ ']' :: rest)) = some (.arr (acc.appA .nil), rest)
        rw [parseStep.eq_def]
        dsimp only
        rw [skipWs_cons_true _ _ (by decide), skipWs_indent,
          skipWs_cons_false _ _ (by decide)]
        dsimp only
        rw [if_neg (by decide : ¬((']' : Char) = ',')), if_pos (rfl : (']' : Char) = ']'),
          appA_nil]
      | cons y t =>
        have hrep2 : repOk y = true ∧ repOkArr t = true := by
          simp [repOkArr, Bool.and_eq_true] at hrep
          exact hrep
        have hb : 1 + (bdg y + 1 + bdgItems t) ≤ M + 1 := by
          simpa [bdgItems] using hbdg
        have hbv : 1 ≤ bdg y := by cases y <;> simp [bdg] <;> omega
        obtain ⟨M3, hM3⟩ : ∃ M3, M = M3 + 1 := ⟨M - 1, by omega⟩
        have ihM := ih M (by omega)
        rw [arrTail_cons]
        rw [parseStep.eq_def]
        dsimp only
        rw [skipWs_cons_false _ _ (by decide)]
        dsimp only
        rw [if_pos (rfl : (',' : Char) = ',')]
        rw [hM3]
        rw [parseStep_val_skipWs M3 _ (strVal (ind + 1) y ++ arrTail ind t rest) (by
          rw [skipWs_cons_true _ _ (by decide), skipWs_indent])]
        rw [← hM3]
        rw [ihM.1 y (ind + 1) (arrTail ind t rest) hrep2.1 (arrTail_delimOk _ _ _) (by omega)]
        dsimp only
        rw [ihM.2.1 t ind rest (acc.snocA y) hrep2.2 hdel (by omega)]
        rw [appA_snocA]
    · intro ms ind rest acc hrep hdel hbdg
      obtain ⟨M, rfl⟩ : ∃ M, N = M + 1 := ⟨N - 1, by omega⟩
      cases ms with
      | nil =>
        show parseStep (M + 1) (.objRest acc)
          ('\n' :: (indentChars ind ++ '}' :: rest)) = some (.obj (acc.appO .nil), rest)
        rw [parseStep.eq_def]
        dsimp only
        rw [skipWs_cons_true _ _ (by decide), skipWs_indent,
          skipWs_cons_false _ _ (by decide)]
        dsimp only
        rw [if_pos (rfl : ('}' : Char) = '}'), appO_nil]
      | cons k v t =>
        have hrep2 : repOk v = true ∧ repOkObj t = true := by
          simp [repOkObj, Bool.and_eq_true] at hrep
          exact hrep
        have hb : 1 + (bdg v + 1 + bdgMembers t) ≤ M + 1 := by
          simpa [bdgMembers] using hbdg
        have hbv : 1 ≤ bdg v := by cases v <;> simp [bdg] <;> omega
        obtain ⟨M3, hM3⟩ : ∃ M3, M = M3 + 1 := ⟨M - 1, by omega⟩
        have ihM := ih M (by omega)
        rw [objTail_cons ind k v t rest (repOk_ne_undefined v hrep2.1) hrep2.2]
        rw [parseStep.eq_def]
        dsimp only
        rw [skipWs_cons_false _ _ (by decide)]
        dsimp only
        rw [if_neg (by decide : ¬((',' : Char) = '}')), if_pos (rfl : (',' : Char) = ',')]
        rw [skipWs_cons_true _ _ (by decide), skipWs_indent,
          skipWs_cons_false _ _ (by decide)]
        simp only
        rw [show escStr k ++ '"' :: ':' :: ' ' :: (strVal (ind + 1) v ++ objTail ind t rest)
          = escStr k ++ '"' :: (':' :: ' ' :: (strVal (ind + 1) v ++ objTail ind t rest))
          from rfl]
        rw [parseStrBody_escStr k _]
        dsimp only
        rw [skipWs_cons_false _ _ (by decide)]
        simp only
        rw [hM3]
        rw [parseStep_val_skipWs M3 _ (strVal (ind + 1) v ++ objTail ind t rest) (by
          rw [skipWs_cons_true _ _ (by decide)])]
        rw [← hM3]
        rw [ihM.1 v (ind + 1) (objTail ind t rest) hrep2.1 (objTail_delimOk _ _ _) (by omega)]
        dsimp only
        rw [ihM.2.2 t ind rest (acc.snocO k v) hrep2.2 hdel (by omega)]
        rw [appO_snocO]

mutual
/-- The parsing budget of a representable value fits in its printed length
plus two. -/
theorem bdg_le_strVal : ∀ (ind : Nat) (v : JsValue), repOk v = true →
    bdg v ≤ (strVal ind v).length + 2
  | _, .null, _ => by simp [bdg, strVal]
  | _, .undefined, h => by simp [repOk] at h
  | _, .bool true, _ => by simp [bdg, strVal]
  | _, .bool false, _ => by simp [bdg, strVal]
  | _, .num (.finite i), _ => by simp [bdg, strVal, jnumJson]
  | _, .num .nan, h => by simp [repOk] at h
  | _, .num .inf, h => by simp [repOk] at h
  | _, .num .neginf, h => by simp [repOk] at h
  | _, .str s, _ => by simp [bdg, strVal]
  | ind, .arr .nil, _ => by simp [bdg, bdgItems, strVal, itemLines]
  | ind, .arr (.cons x t), h => by
    have h2 : repOk x = true ∧ repOkArr t = true := by
      simp [repOk, repOkArr, Bool.and_eq_true] at h
      exact h
    have hx := bdg_le_strVal (ind + 1) x h2.1
    have ht := bdgItems_le_arrTail ind [] t h2.2
    have hlen := congrArg List.length (strVal_arr_cons ind x t [])
    simp only [List.length_append, List.length_cons, List.length_nil,
      indentChars, List.length_replicate] at hlen
    simp only [bdg, bdgItems]
    omega
  | ind, .obj .nil, _ => by simp [bdg, bdgMembers, strVal, memberLines]
  | ind, .obj (.cons k v t), h => by
    have h2 : repOk v = true ∧ repOkObj t = true := by
      simp [repOk, repOkObj, Bool.and_eq_true] at h
      exact h
    have hv := bdg_le_strVal (ind + 1) v h2.1
    have ht := bdgMembers_le_objTail ind [] t h2.2
    have hlen := congrArg List.length
      (strVal_obj_cons ind k v t [] (repOk_ne_undefined v h2.1) h2.2)
    simp only [List.length_append, List.length_cons, List.length_nil,
      indentChars, List.length_replicate] at hlen
    simp only [bdg, bdgMembers]
    omega

/-- The loop budget of the remaining array elements fits in the printed
tail's length. -/
theorem bdgItems_le_arrTail : ∀ (ind : Nat) (rest : JStr) (xs : JsArr),
    repOkArr xs = true → 1 + bdgItems xs ≤ (arrTail ind xs rest).length
  | ind, rest, .nil, _ => by
    simp [bdgItems, arrTail, indentChars]
  | ind, rest, .cons y t, h => by
    have h2 : repOk y = true ∧ repOkArr t = true := by
      simp [repOkArr, Bool.and_eq_true] at h
      exact h
    have hy := bdg_le_strVal (ind + 1) y h2.1
    have ht := bdgItems_le_arrTail ind rest t h2.2
    have hlen := congrArg List.length (arrTail_cons ind y t rest)
    simp only [List.length_append, List.length_cons,
      indentChars, List.length_replicate] at hlen
    simp only [bdgItems]
    omega

/-- The loop budget of the remaining object members fits in the printed
tail's length. -/
theorem bdgMembers_le_objTail : ∀ (ind : Nat) (rest : JStr) (ms : JsObj),
    repOkObj ms = true → 1 + bdgMembers ms ≤ (objTail ind ms rest).length
  | ind, rest, .nil, _ => by
    simp [bdgMembers, objTail, indentChars]
  | ind, rest, .cons k v t, h => by
    have h2 : repOk v = true ∧ repOkObj t = true := by
      simp [repOkObj, Bool.and_eq_true] at h
      exact h
    have hv := bdg_le_strVal (ind + 1) v h2.1
    have ht := bdgMembers_le_objTail ind rest t h2.2
    have hlen := congrArg List.length
      (objTail_cons ind k v t rest (repOk_ne_undefined v h2.1) h2.2)
    simp only [List.length_append, List.length_cons,
      indentChars, List.length_replicate] at hlen
    simp only [bdgMembers]
    omega
end

/-- `JSON.parse` recovers every representable value from its
`JSON.stringify(·, null, 2)` text. -/
theorem jsonParse_strVal (v : JsValue) (h : repOk v = true) :
    jsonParse (strVal 0 v) = some v := by
  have hp := (parseStep_roundTrip ((strVal 0 v).length + 2)).1 v 0 [] h
    (by simp [delimOk]) (by
      have := bdg_le_strVal 0 v h
      omega)
  rw [List.append_nil] at hp
  unfold jsonParse
  rw [hp]
  simp [skipWs]

/-- Claim C5: for every accepted save-coordinates request (truthy
`imageName`, `points` an array, both JSON-representable), the endpoint
answers 200, the written snapshot file reads back, its JSON parse
succeeds, and the parsed object's `imageName` and `points` members are
exactly the submitted values: the write-then-read round trip is
lossless. -/
theorem c5_roundtrip (body : JsValue) (fs : FileSys) (now : Nat) (ts : JStr)
    (imageName points : JsValue)
    (him : getMem body ("imageName".toList) = some imageName)
    (hpt : getMem body ("points".toList) = some points)
    (htr : truthy imageName = true)
    (har : isArrayJs points = true)
    (hri : repOk imageName = true) (hrp : repOk points = true) :
    (saveCoordinates body fs now ts).1.1 = 200 ∧
    readFileFS (saveCoordinates body fs now ts).2 (snapshotPath now) =
      some (strVal 0 (snapshotData imageName points ts)) ∧
    jsonParse (strVal 0 (snapshotData imageName points ts)) =
      some (snapshotData imageName points ts) ∧
    getMem (snapshotData imageName points ts) ("imageName".toList) = some imageName ∧
    getMem (snapshotData imageName points ts) ("points".toList) = some points := by
  have htp : truthy points = true := by
    cases points <;> simp [isArrayJs] at har
    simp [truthy]
  have hsc : saveCoordinates body fs now ts =
      ((200, saveOkBody (snapshotName now)),
        writeFileFS (if existsSyncFS fs dataDirLit then fs
          else { fs with dirs := dataDirLit :: fs.dirs }) (snapshotPath now)
          (strVal 0 (snapshotData imageName points ts))) := by
    unfold saveCoordinates
    rw [him, hpt]
    simp [htr, htp, har]
  refine ⟨by rw [hsc], ?_, ?_, ?_, ?_⟩
  · rw [hsc]
    simp [readFileFS, writeFileFS, List.lookup]
  · refine jsonParse_strVal _ ?_
    simp [snapshotData, repOk, repOkObj, hri, hrp]
  · simp [getMem, snapshotData, JsObj.find]
  · rw [show getMem (snapshotData imageName points ts) ("points".toList) =
      some ((JsObj.find ("points".toList)
        (.cons ("imageName".toList) imageName
          (.cons ("points".toList) points
            (.cons ("timestamp".toList) (.str ts) .nil)))).getD .undefined) from rfl]
    rw [JsObj.find, if_neg (by decide)]
    rw [JsObj.find, if_pos rfl]
    rfl

/-- Claim C5, witness: the concrete accepted request with image name `'a'`
and one numeric point rounds-trips exactly. -/
theorem c5_roundtrip_witness :
    (saveCoordinates (.obj (.cons ("imageName".toList) (.str ['a'])
        (.cons ("points".toList) (.arr (.cons (.num (.finite 1)) .nil)) .nil)))
      ⟨[], []⟩ 7 ['t']).1.1 = 200 ∧
    readFileFS (saveCoordinates (.obj (.cons ("imageName".toList) (.str ['a'])
        (.cons ("points".toList) (.arr (.cons (.num (.finite 1)) .nil)) .nil)))
      ⟨[], []⟩ 7 ['t']).2 (snapshotPath 7) =
      some (strVal 0 (snapshotData (.str ['a'])
        (.arr (.cons (.num (.finite 1)) .nil)) ['t'])) ∧
    jsonParse (strVal 0 (snapshotData (.str ['a'])
        (.arr (.cons (.num (.finite 1)) .nil)) ['t'])) =
      some (snapshotData (.str ['a']) (.arr (.cons (.num (.finite 1)) .nil)) ['t']) ∧
    getMem (snapshotData (.str ['a']) (.arr (.cons (.num (.finite 1)) .nil)) ['t'])
      ("imageName".toList) = some (.str ['a']) ∧
    getMem (snapshotData (.str ['a']) (.arr (.cons (.num (.finite 1)) .nil)) ['t'])
      ("points".toList) = some (.arr (.cons (.num (.finite 1)) .nil)) :=
  c5_roundtrip (.obj (.cons ("imageName".toList) (.str ['a'])
      (.cons ("points".toList) (.arr (.cons (.num (.finite 1)) .nil)) .nil)))
    ⟨[], []⟩ 7 ['t'] (.str ['a']) (.arr (.cons (.num (.finite 1)) .nil))
    (by rfl) (by rfl) (by decide) (by decide) (by decide) (by decide)
